import Mathlib

/-!
# Verification of the lorikeet step runner (`src/runner.rs`)

This file embeds the concurrent dependency-driven scheduler of
`src/runner.rs` as a shallow model and proves the specification claims
about it.

Embedding overview:

* `Status`, `poll` and `run_steps` are translated directly from
  `src/runner.rs`.  `Outcome`, `RunType` and the `Step` entity are
  external collaborators (defined in `step.rs`, outside the verified
  core); they are modelled from the spec (§3 DATA MODEL) with exactly the
  structure the core inspects: an optional output, an optional error and a
  duration for `Outcome`, and a `RunType` with one variant that runs an
  action verbatim and one that references another step by name.
* `poll` (lines 41–121) runs under one exclusive acquisition of the
  status-table mutex, so within a single `poll` call no interference is
  possible; it is modelled as a pure function producing an ordered trace
  of primitive effects (`Ev.send` on the notification channel,
  `Ev.write` to the status table, `Ev.submit` to the worker pool) or
  `none` where the source panics (the `unwrap` of the name lookup at
  line 97, and out-of-range indexing).
* The whole run (lines 124–189) is modelled by the small-step relation
  `SysStep`: the coordinator thread performs the initial activation
  polls and the cascade polls one at a time (`pollStep`) and receives
  from the channel (`recv`, enabled only between cascades, exactly as
  the source's serial loop), while worker-pool task bodies
  (`worker`) may interleave arbitrarily.  A worker body's write of
  `Completed` (line 117) immediately followed by its send (line 118) is
  one transition; the external `execute` contract is an arbitrary oracle
  `Config.exec`.
-/

set_option autoImplicit false

namespace Lorikeet

/-- Modelled from the spec (§3): `Outcome` is the result of running (or
failing to run) a step — an optional textual output, an optional error
description, and an elapsed duration.  The core never interprets the
duration beyond constructing `Duration::from_secs(0)`, so it is a `Nat`. -/
structure Outcome where
  output : Option String
  error : Option String
  duration : Nat
deriving Repr, DecidableEq

/-- `Status` from `src/runner.rs` lines 33–38: tri-state per step. -/
inductive Status where
  | InProgress : Status
  | Outstanding : Status
  | Completed : Outcome → Status
deriving Repr, DecidableEq

/-- Modelled from the spec (§3): `RunType` has one variant that executes
an external action verbatim (`Cmd`) and one that references another step
by name (`Step`), rewritten at dispatch time to that step's recorded
output.  Only these two shapes are distinguished by the core
(lines 92–104). -/
inductive RunType where
  | Cmd : String → RunType
  | Step : String → RunType
deriving Repr, DecidableEq

/-- Modelled from the spec (§3, §6): the `Step` entity as far as the core
mutates it — a unique name, an action specification and the outcome
recorded after completion.  Expectation/retry/filter configuration is
opaque pass-through and does not influence the scheduler. -/
structure StepE where
  name : String
  run : RunType
  outcome : Option Outcome
deriving Repr, DecidableEq

/-- The synthetic "dependency not met" outcome written at lines 81–85:
empty output, fixed error text, zero duration. -/
def dnmOutcome : Outcome :=
  { output := some "", error := some "Dependency Not Met", duration := 0 }

/-- The immutable per-run environment shared by all `StepRunner`s
(lines 20–31): number of steps, the dependency graph (incoming and
outgoing neighbor lists, in iteration order), each step's `RunType`, the
name→index lookup, and the external `execute` contract as an oracle from
a step index and its resolved action to an `Outcome`. -/
structure Config where
  N : Nat
  deps : Nat → List Nat
  dependents : Nat → List Nat
  runs : Nat → RunType
  lookup : String → Option Nat
  exec : Nat → RunType → Outcome

/-- Global run state: the status table, the append-only history of work
items submitted to the pool, the indices whose worker body has finished,
the append-only history of sends on the notification channel, the number
of notifications the coordinator has received, and the coordinator's list
of pending poll targets (initial activation plus the current cascade). -/
structure State where
  status : List Status
  submitted : List (Nat × RunType)
  finished : List Nat
  sends : List Nat
  received : Nat
  pending : List Nat
deriving Repr, DecidableEq

/-- A primitive effect performed by `poll` while holding the status-table
lock: a send on the notification channel, a write to the status table, or
a submission to the worker pool. -/
inductive Ev where
  | send : Nat → Ev
  | write : Nat → Status → Ev
  | submit : Nat → RunType → Ev
deriving Repr, DecidableEq

/-- Apply one primitive effect to the state. -/
def applyEv (s : State) : Ev → State
  | Ev.send i => { s with sends := s.sends ++ [i] }
  | Ev.write i st => { s with status := s.status.set i st }
  | Ev.submit i a => { s with submitted := s.submitted ++ [(i, a)] }

/-- Apply an ordered trace of effects. -/
def applyEvs (s : State) (l : List Ev) : State := l.foldl applyEv s

/-- Result of the dependency-inspection loop of `poll` (lines 56–78). -/
inductive DepCheck where
  | dormant : DepCheck
  | hasError : DepCheck
  | allOk : DepCheck
deriving Repr, DecidableEq

/-- The dependency-inspection loop of `poll` (lines 56–78), in iteration
order: a dependency `Completed` with an error present stops the loop with
`hasError`; a dependency not yet `Completed` returns early (`dormant`);
a dependency `Completed` without error is skipped. -/
def checkDeps (st : List Status) : List Nat → DepCheck
  | [] => DepCheck.allOk
  | d :: rest =>
    match st.getD d Status.Outstanding with
    | Status.Completed o =>
        if o.error.isSome then DepCheck.hasError else checkDeps st rest
    | _ => DepCheck.dormant

/-- Resolution of the effective action at dispatch time (lines 92–104):
if the step's `RunType` references another step by name, the name is
looked up (`unwrap` at line 97 — a missing entry panics, modelled as
`none`), and if that step is `Completed` with an output present the
output is substituted; otherwise the action is passed through verbatim.
The status table is read after the `InProgress` write, as in the source. -/
def resolveRun (c : Config) (st : List Status) : RunType → Option RunType
  | RunType.Step name =>
    match c.lookup name with
    | none => none
    | some j =>
      match st.getD j Status.Outstanding with
      | Status.Completed o =>
        match o.output with
        | some out => some (RunType.Step out)
        | none => some (RunType.Step name)
      | _ => some (RunType.Step name)
  | r => some r

/-- `StepRunner::poll` (lines 41–121) as the ordered trace of effects it
performs under the status-table lock, for the runner of step `i`:

* status already `Completed` → no-op (lines 46–52);
* some dependency not `Completed`, found before any failed dependency →
  no-op (lines 70–76);
* some dependency `Completed` with an error → send `i` on the channel
  (lines 63–65, inside the loop, before the table write) and then write
  the synthetic `dnmOutcome` (lines 80–87);
* all dependencies `Completed` without error and status exactly
  `Outstanding` → write `InProgress` (line 90), resolve the action
  (lines 92–104, `none` on the lookup panic) and submit the work item
  (lines 114–119).

`none` models a panic. -/
def pollTrace (c : Config) (i : Nat) (s : State) : Option (List Ev) :=
  match s.status.getD i Status.Outstanding with
  | Status.Completed _ => some []
  | _ =>
    match checkDeps s.status (c.deps i) with
    | DepCheck.dormant => some []
    | DepCheck.hasError =>
        some [Ev.send i, Ev.write i (Status.Completed dnmOutcome)]
    | DepCheck.allOk =>
        if s.status.getD i Status.Outstanding = Status.Outstanding then
          match resolveRun c (s.status.set i Status.InProgress) (c.runs i) with
          | none => none
          | some a => some [Ev.write i Status.InProgress, Ev.submit i a]
        else some []

/-- `StepRunner::poll` as a state transformer: the trace applied to the
state.  `none` models a panic. -/
def poll (c : Config) (i : Nat) (s : State) : Option State :=
  (pollTrace c i s).map (applyEvs s)

/-- One transition of the whole run (`run_steps`, lines 124–189):

* `worker`: a pool task body (lines 114–119) for a submitted, unfinished
  work item runs the external `execute` contract, writes
  `Completed(outcome)` and sends its index; task bodies interleave
  arbitrarily with the coordinator.
* `recv`: the coordinator, with no cascade polls outstanding and fewer
  than `N` notifications received, receives the next send in FIFO order
  (line 170) and schedules a poll of every outgoing neighbor of the
  received index (lines 172–174).
* `pollStep`: the coordinator performs the next scheduled poll (initial
  activation at lines 165–167, cascade at line 173). -/
inductive SysStep (c : Config) : State → State → Prop
  | worker (s : State) (i : Nat) (a : RunType)
      (hmem : (i, a) ∈ s.submitted) (hnf : i ∉ s.finished) :
      SysStep c s
        { s with
          status := s.status.set i (Status.Completed (c.exec i a)),
          finished := s.finished ++ [i],
          sends := s.sends ++ [i] }
  | recv (s : State) (d : Nat)
      (hp : s.pending = []) (hn : s.received < c.N)
      (hq : s.received < s.sends.length)
      (hd : s.sends.getD s.received 0 = d) :
      SysStep c s
        { s with received := s.received + 1, pending := c.dependents d }
  | pollStep (s t : State) (j : Nat) (rest : List Nat)
      (hp : s.pending = j :: rest)
      (hpoll : poll c j s = some t) :
      SysStep c s { t with pending := rest }

/-- The state at lines 127–167 after the table is allocated
(`Outstanding` × N, line 128) and before the initial activation pass:
every index is scheduled for an initial poll, in index order. -/
def initState (c : Config) : State :=
  { status := List.replicate c.N Status.Outstanding
  , submitted := []
  , finished := []
  , sends := []
  , received := 0
  , pending := List.range c.N }

/-- A state the run can be in. -/
def Reachable (c : Config) (s : State) : Prop :=
  Relation.ReflTransGen (SysStep c) (initState c) s

/-- No transition is enabled: the run is over (or, absent the
well-formedness hypotheses, panicked). -/
def Stuck (c : Config) (s : State) : Prop := ∀ t, ¬ SysStep c s t

/-- Writing the recorded outcomes back into the step entities
(lines 183–187): a `Completed` status populates the entity's outcome,
any other status leaves the entity unchanged. -/
def assemble : List StepE → List Status → List StepE
  | [], _ => []
  | l, [] => l
  | st :: ss, q :: qs =>
    (match q with
     | Status.Completed o => { st with outcome := some o }
     | _ => st) :: assemble ss qs

/-- `run_steps` (lines 124–189): `create_graph` is an external
collaborator, so its result is the parameter `g`; on error it is
propagated (line 125).  The remaining error paths of the source cannot
fire in the embedding: the channel receiver cannot see a disconnect
(line 170) because the original sender lives until the loop ends, the
`Arc` unwrap (lines 180–181) succeeds because every clone is dropped
before it, and the mutex cannot be poisoned (line 183) because the
external `execute` contract always returns an `Outcome`.  On success the
outcomes recorded in the final status table `final` are written back
into the step entities. -/
def run_steps (g : Except String Config) (steps : List StepE)
    (final : State) : Except String (List StepE) :=
  match g with
  | Except.error e => Except.error e
  | Except.ok _ => Except.ok (assemble steps final.status)

/-- Well-formedness of the run environment, as `run_steps` establishes it
(lines 124–163) together with the external `create_graph` contract (§6):
graph nodes are step indices, a dependency edge is mirrored in the
outgoing-neighbor view, and every name referenced by a `RunType::Step`
resolves in the lookup built from the step names (an unresolvable
dependency makes `create_graph` fail before any execution, §6/§7).
`acyclic` is the acyclicity invariant of the graph, stated as
well-foundedness of the depends-on relation. -/
structure WellFormed (c : Config) : Prop where
  depsLt : ∀ i, i < c.N → ∀ d, d ∈ c.deps i → d < c.N
  depdLt : ∀ i, i < c.N → ∀ j, j ∈ c.dependents i → j < c.N
  consist : ∀ i, i < c.N → ∀ d, d < c.N → d ∈ c.deps i → i ∈ c.dependents d
  resolvable : ∀ i, i < c.N → ∀ name, c.runs i = RunType.Step name →
      (c.lookup name).isSome = true
  acyclic : WellFounded (fun a b => a ∈ c.deps b)

/-- Pointwise order on `Status` along which every run is monotone:
`Outstanding` may become anything, `InProgress` may only complete, and a
`Completed` status is frozen together with its outcome. -/
def statusLe : Status → Status → Prop
  | Status.Outstanding, _ => True
  | Status.InProgress, Status.InProgress => True
  | Status.InProgress, Status.Completed _ => True
  | Status.Completed o, Status.Completed o' => o = o'
  | _, _ => False

/-- Is this event a send of index `i`? -/
def isSend (i : Nat) : Ev → Bool
  | Ev.send j => j = i
  | _ => false

/-- Is this event a status-table write at index `i`? -/
def isWrite (i : Nat) : Ev → Bool
  | Ev.write j _ => j = i
  | _ => false

/-- Does some status-table write at index `i` occur strictly before a
send of `i` in the trace? -/
def writeBeforeSendB (i : Nat) : List Ev → Bool
  | [] => false
  | e :: rest => (isWrite i e && rest.any (isSend i)) || writeBeforeSendB i rest

/-! ### List helper lemmas -/

lemma getD_set_self {α : Type} (l : List α) (i : Nat) (v d : α)
    (h : i < l.length) : (l.set i v).getD i d = v := by
  simp [List.getD, List.getElem?_set, h]

lemma getD_set_ne {α : Type} (l : List α) (i j : Nat) (v d : α)
    (h : i ≠ j) : (l.set i v).getD j d = l.getD j d := by
  simp [List.getD, List.getElem?_set, h]

lemma mem_getD {α : Type} (l : List α) (n : Nat) (hn : n < l.length) (d : α) :
    l.getD n d ∈ l := by
  rw [List.getD_eq_getElem l d hn]
  exact List.getElem_mem hn

lemma le_foldr_max (l : List Nat) (x : Nat) (h : x ∈ l) :
    x ≤ l.foldr Nat.max 0 := by
  induction l with
  | nil => cases h
  | cons a t ih =>
    rcases List.mem_cons.mp h with rfl | hm
    · exact Nat.le_max_left _ _
    · exact Nat.le_trans (ih hm) (Nat.le_max_right _ _)

/-! ### `checkDeps` characterization -/

lemma checkDeps_allOk (st : List Status) (l : List Nat)
    (h : checkDeps st l = DepCheck.allOk) :
    ∀ d ∈ l, ∃ o, st.getD d Status.Outstanding = Status.Completed o ∧ o.error = none := by
  induction l with
  | nil => intro d hd; cases hd
  | cons a t ih =>
    intro d hd
    unfold checkDeps at h
    rcases hst : st.getD a Status.Outstanding with _ | _ | o
    · rw [hst] at h; cases h
    · rw [hst] at h; cases h
    · rw [hst] at h
      by_cases he : o.error.isSome
      · simp [he] at h
      · simp [he] at h
        rcases List.mem_cons.mp hd with rfl | hm
        · exact ⟨o, hst, Option.not_isSome_iff_eq_none.mp he⟩
        · exact ih h d hm

lemma checkDeps_hasError (st : List Status) (l : List Nat)
    (h : checkDeps st l = DepCheck.hasError) :
    ∃ d ∈ l, ∃ o, st.getD d Status.Outstanding = Status.Completed o ∧
      o.error.isSome = true := by
  induction l with
  | nil => cases h
  | cons a t ih =>
    unfold checkDeps at h
    rcases hst : st.getD a Status.Outstanding with _ | _ | o
    · rw [hst] at h; cases h
    · rw [hst] at h; cases h
    · rw [hst] at h
      by_cases he : o.error.isSome
      · exact ⟨a, List.mem_cons_self a t, o, hst, he⟩
      · simp [he] at h
        rcases ih h with ⟨d, hd, o', h1, h2⟩
        exact ⟨d, List.mem_cons_of_mem a hd, o', h1, h2⟩

lemma checkDeps_dormant (st : List Status) (l : List Nat)
    (h : checkDeps st l = DepCheck.dormant) :
    ∃ d ∈ l, ∀ o, st.getD d Status.Outstanding ≠ Status.Completed o := by
  induction l with
  | nil => cases h
  | cons a t ih =>
    unfold checkDeps at h
    rcases hst : st.getD a Status.Outstanding with _ | _ | o
    · rw [hst] at h
      exact ⟨a, List.mem_cons_self a t, fun o => by rw [hst]; intro hc; cases hc⟩
    · rw [hst] at h
      exact ⟨a, List.mem_cons_self a t, fun o => by rw [hst]; intro hc; cases hc⟩
    · rw [hst] at h
      by_cases he : o.error.isSome
      · simp [he] at h
      · simp [he] at h
        rcases ih h with ⟨d, hd, hne⟩
        exact ⟨d, List.mem_cons_of_mem a hd, hne⟩

lemma checkDeps_congr (st st' : List Status) (l : List Nat)
    (h : ∀ d ∈ l, st'.getD d Status.Outstanding = st.getD d Status.Outstanding) :
    checkDeps st' l = checkDeps st l := by
  induction l with
  | nil => rfl
  | cons a t ih =>
    unfold checkDeps
    rw [h a (List.mem_cons_self a t)]
    rcases st.getD a Status.Outstanding with _ | _ | o
    · rfl
    · rfl
    · by_cases he : o.error.isSome
      · simp [he]
      · simp [he]
        exact ih (fun d hd => h d (List.mem_cons_of_mem a hd))

/-! ### `poll` characterization -/

/-- The three possible effects of a successful `poll` of step `j`:
no-op (already completed, a dormant dependency, or a redundant poll of an
in-progress step), the dependency-failure path (send then synthetic
completion), or dispatch (transition to `InProgress` and submission of
the resolved work item). -/
lemma poll_shape (c : Config) (j : Nat) (s t : State) (h : poll c j s = some t) :
    (t = s ∧ ((∃ o, s.status.getD j Status.Outstanding = Status.Completed o)
        ∨ checkDeps s.status (c.deps j) = DepCheck.dormant
        ∨ (s.status.getD j Status.Outstanding = Status.InProgress
            ∧ checkDeps s.status (c.deps j) = DepCheck.allOk)))
  ∨ ((∀ o, s.status.getD j Status.Outstanding ≠ Status.Completed o)
      ∧ checkDeps s.status (c.deps j) = DepCheck.hasError
      ∧ t = { s with status := s.status.set j (Status.Completed dnmOutcome),
                     sends := s.sends ++ [j] })
  ∨ (∃ a, s.status.getD j Status.Outstanding = Status.Outstanding
      ∧ checkDeps s.status (c.deps j) = DepCheck.allOk
      ∧ resolveRun c (s.status.set j Status.InProgress) (c.runs j) = some a
      ∧ t = { s with status := s.status.set j Status.InProgress,
                     submitted := s.submitted ++ [(j, a)] }) := by
  unfold poll at h
  rcases htr : pollTrace c j s with _ | tr
  · rw [htr] at h; cases h
  · rw [htr] at h
    simp only [Option.map_some'] at h
    have ht : applyEvs s tr = t := Option.some.inj h
    clear h
    unfold pollTrace at htr
    split at htr
    · -- already Completed
      rename_i o hst
      injection htr with htr
      subst htr
      exact Or.inl ⟨ht.symm, Or.inl ⟨o, hst⟩⟩
    · -- not Completed: inspect the dependency loop
      rename_i x hne
      split at htr
      · -- dormant
        rename_i hcd
        injection htr with htr
        subst htr
        exact Or.inl ⟨ht.symm, Or.inr (Or.inl hcd)⟩
      · -- hasError
        rename_i hcd
        injection htr with htr
        subst htr
        exact Or.inr (Or.inl ⟨fun o hc => absurd hc (by intro hc2; exact hne o hc2),
          hcd, ht.symm⟩)
      · -- allOk
        rename_i hcd
        split at htr
        · -- Outstanding: dispatch
          rename_i hout
          split at htr
          · cases htr
          · rename_i a hres
            injection htr with htr
            subst htr
            exact Or.inr (Or.inr ⟨a, hout, hcd, hres, ht.symm⟩)
        · -- redundant poll of an InProgress step
          rename_i hout
          injection htr with htr
          subst htr
          have hip : s.status.getD j Status.Outstanding = Status.InProgress := by
            rcases hg : s.status.getD j Status.Outstanding with _ | _ | o
            · rfl
            · exact absurd hg hout
            · exact absurd hg (fun hc => hne o hc)
          exact Or.inl ⟨ht.symm, Or.inr (Or.inr ⟨hip, hcd⟩)⟩

/-- `resolveRun` only fails on an unresolvable name reference
(the `unwrap` panic at line 97). -/
lemma resolveRun_total (c : Config) (st : List Status) (r : RunType)
    (hres : ∀ name, r = RunType.Step name → (c.lookup name).isSome = true) :
    ∃ a, resolveRun c st r = some a := by
  rcases r with a | name
  · exact ⟨RunType.Cmd a, rfl⟩
  · have hsome := hres name rfl
    rcases hlk : c.lookup name with _ | k
    · rw [hlk] at hsome; cases hsome
    · rcases hst : st.getD k Status.Outstanding with _ | _ | o
      · exact ⟨RunType.Step name, by simp only [resolveRun, hlk, hst]⟩
      · exact ⟨RunType.Step name, by simp only [resolveRun, hlk, hst]⟩
      · rcases ho : o.output with _ | out
        · exact ⟨RunType.Step name, by simp only [resolveRun, hlk, hst, ho]⟩
        · exact ⟨RunType.Step out, by simp only [resolveRun, hlk, hst, ho]⟩

/-- Under the well-formedness hypotheses `poll` cannot panic: the only
`none` path is the `unwrap` of an unresolvable name reference. -/
lemma poll_total (c : Config) (hw : WellFormed c) (j : Nat) (hj : j < c.N)
    (s : State) : ∃ t, poll c j s = some t := by
  unfold poll
  suffices h : ∃ tr, pollTrace c j s = some tr by
    rcases h with ⟨tr, htr⟩
    exact ⟨applyEvs s tr, by rw [htr]; rfl⟩
  unfold pollTrace
  rcases hst : s.status.getD j Status.Outstanding with _ | _ | o
  · rcases hcd : checkDeps s.status (c.deps j) with _ | _ | _
    · exact ⟨[], rfl⟩
    · exact ⟨[Ev.send j, Ev.write j (Status.Completed dnmOutcome)], rfl⟩
    · exact ⟨[], rfl⟩
  · rcases hcd : checkDeps s.status (c.deps j) with _ | _ | _
    · exact ⟨[], rfl⟩
    · exact ⟨[Ev.send j, Ev.write j (Status.Completed dnmOutcome)], rfl⟩
    · obtain ⟨a, ha⟩ := resolveRun_total c (s.status.set j Status.InProgress)
        (c.runs j) (fun name h => hw.resolvable j hj name h)
      refine ⟨[Ev.write j Status.InProgress, Ev.submit j a], ?_⟩
      rw [ha]
      rfl
  · exact ⟨[], rfl⟩

/-! ### The run invariant -/

/-- Invariant of every reachable state of a well-formed run:

* the table has exactly `N` statuses;
* a step's index has been sent on the channel exactly when the step is
  `Completed`, and at most once;
* a work item is submitted at most once per index, every finished worker
  corresponds to a submitted item, and `InProgress` is exactly
  "submitted but worker not yet finished";
* every submitted item had all its dependencies `Completed` without
  error, and a name-referencing action was resolved against the
  referenced dependency's recorded outcome;
* a `Completed` status comes either from the step's own worker or is
  the synthetic dependency-failure outcome;
* the coordinator has received at most what was sent and at most `N`;
* an `Outstanding` step is scheduled for a poll or has a dependency
  whose notification has not yet been received. -/
structure Inv (c : Config) (s : State) : Prop where
  lenStatus : s.status.length = c.N
  sendsLt : ∀ i, i ∈ s.sends → i < c.N
  sendsNodup : s.sends.Nodup
  completed_iff_sent : ∀ i, i < c.N →
    ((∃ o, s.status.getD i Status.Outstanding = Status.Completed o) ↔ i ∈ s.sends)
  subLt : ∀ p, p ∈ s.submitted → p.1 < c.N
  subNodup : (s.submitted.map Prod.fst).Nodup
  finSub : ∀ i, i ∈ s.finished → i ∈ s.submitted.map Prod.fst
  finNodup : s.finished.Nodup
  finCompleted : ∀ i, i ∈ s.finished →
    ∃ o, s.status.getD i Status.Outstanding = Status.Completed o
  inprog_iff : ∀ i, i < c.N →
    (s.status.getD i Status.Outstanding = Status.InProgress ↔
      (i ∈ s.submitted.map Prod.fst ∧ i ∉ s.finished))
  subDeps : ∀ p, p ∈ s.submitted → ∀ d, d ∈ c.deps p.1 →
    ∃ o, s.status.getD d Status.Outstanding = Status.Completed o ∧ o.error = none
  subAction : ∀ p, p ∈ s.submitted → ∀ name j, c.runs p.1 = RunType.Step name →
    c.lookup name = some j → j ∈ c.deps p.1 →
    ∃ o, s.status.getD j Status.Outstanding = Status.Completed o ∧
      p.2 = RunType.Step (o.output.getD name)
  complSrc : ∀ i, i < c.N → ∀ o,
    s.status.getD i Status.Outstanding = Status.Completed o →
    i ∈ s.finished ∨ o = dnmOutcome
  recvLe : s.received ≤ s.sends.length
  recvLeN : s.received ≤ c.N
  pendLt : ∀ j, j ∈ s.pending → j < c.N
  outWit : ∀ i, i < c.N →
    s.status.getD i Status.Outstanding = Status.Outstanding →
    i ∈ s.pending ∨ ∃ d, d ∈ c.deps i ∧ d ∉ s.sends.take s.received

lemma getD_replicate {α : Type} (n i : Nat) (a : α) :
    (List.replicate n a).getD i a = a := by
  simp [List.getD]

lemma nodup_append_singleton {α : Type} (l : List α) (y : α)
    (h : l.Nodup) (hy : y ∉ l) : (l ++ [y]).Nodup := by
  rw [List.nodup_append]
  refine ⟨h, List.nodup_singleton y, ?_⟩
  intro a ha hb
  rw [List.mem_singleton] at hb
  subst hb
  exact hy ha

lemma mem_append_singleton {α : Type} (x y : α) (l : List α) :
    x ∈ l ++ [y] ↔ x ∈ l ∨ x = y := by
  simp

/-- The initial state satisfies the invariant. -/
lemma inv_init (c : Config) : Inv c (initState c) := by
  constructor
  case lenStatus => exact List.length_replicate c.N Status.Outstanding
  case sendsLt => intro i h; cases h
  case sendsNodup => exact List.nodup_nil
  case completed_iff_sent =>
    intro i hi
    constructor
    · rintro ⟨o, ho⟩
      rw [show (initState c).status = List.replicate c.N Status.Outstanding from rfl,
        getD_replicate] at ho
      cases ho
    · intro h; cases h
  case subLt => intro p hp; cases hp
  case subNodup => exact List.nodup_nil
  case finSub => intro i h; cases h
  case finNodup => exact List.nodup_nil
  case finCompleted => intro i h; cases h
  case inprog_iff =>
    intro i hi
    constructor
    · intro h
      rw [show (initState c).status = List.replicate c.N Status.Outstanding from rfl,
        getD_replicate] at h
      cases h
    · rintro ⟨h, _⟩; cases h
  case subDeps => intro p hp; cases hp
  case subAction => intro p hp; cases hp
  case complSrc =>
    intro i hi o ho
    rw [show (initState c).status = List.replicate c.N Status.Outstanding from rfl,
      getD_replicate] at ho
    cases ho
  case recvLe => exact Nat.le_refl 0
  case recvLeN => exact Nat.zero_le c.N
  case pendLt =>
    intro j hj
    exact List.mem_range.mp hj
  case outWit =>
    intro i hi _
    exact Or.inl (List.mem_range.mpr hi)

/-- The invariant is preserved by a worker-pool task body finishing
(lines 114–119). -/
lemma inv_worker (c : Config) (s : State) (hinv : Inv c s) (i : Nat) (a : RunType)
    (hmem : (i, a) ∈ s.submitted) (hnf : i ∉ s.finished) :
    Inv c { s with
      status := s.status.set i (Status.Completed (c.exec i a)),
      finished := s.finished ++ [i],
      sends := s.sends ++ [i] } := by
  have hiN : i < c.N := hinv.subLt (i, a) hmem
  have himap : i ∈ s.submitted.map Prod.fst := List.mem_map.mpr ⟨(i, a), hmem, rfl⟩
  have hip : s.status.getD i Status.Outstanding = Status.InProgress :=
    (hinv.inprog_iff i hiN).mpr ⟨himap, hnf⟩
  have hins : i ∉ s.sends := by
    intro hmem2
    rcases (hinv.completed_iff_sent i hiN).mpr hmem2 with ⟨o, ho⟩
    rw [hip] at ho
    cases ho
  have hilen : i < s.status.length := by rw [hinv.lenStatus]; exact hiN
  constructor
  case lenStatus => rw [List.length_set]; exact hinv.lenStatus
  case sendsLt =>
    intro k hk
    rcases (mem_append_singleton k i s.sends).mp hk with h | rfl
    · exact hinv.sendsLt k h
    · exact hiN
  case sendsNodup => exact nodup_append_singleton s.sends i hinv.sendsNodup hins
  case completed_iff_sent =>
    intro k hk
    by_cases hki : k = i
    · subst hki
      constructor
      · intro _
        exact (mem_append_singleton k k s.sends).mpr (Or.inr rfl)
      · intro _
        exact ⟨c.exec k a, getD_set_self s.status k _ _ hilen⟩
    · rw [getD_set_ne s.status i k _ _ (fun h => hki h.symm)]
      constructor
      · intro h
        exact (mem_append_singleton k i s.sends).mpr
          (Or.inl ((hinv.completed_iff_sent k hk).mp h))
      · intro h
        rcases (mem_append_singleton k i s.sends).mp h with h | rfl
        · exact (hinv.completed_iff_sent k hk).mpr h
        · exact absurd rfl hki
  case subLt => exact hinv.subLt
  case subNodup => exact hinv.subNodup
  case finSub =>
    intro k hk
    rcases (mem_append_singleton k i s.finished).mp hk with h | rfl
    · exact hinv.finSub k h
    · exact himap
  case finNodup => exact nodup_append_singleton s.finished i hinv.finNodup hnf
  case finCompleted =>
    intro k hk
    rcases (mem_append_singleton k i s.finished).mp hk with h | rfl
    · have hki : k ≠ i := fun he => hnf (he ▸ h)
      rw [getD_set_ne s.status i k _ _ (fun he => hki he.symm)]
      exact hinv.finCompleted k h
    · exact ⟨c.exec k a, getD_set_self s.status k _ _ hilen⟩
  case inprog_iff =>
    intro k hk
    by_cases hki : k = i
    · subst hki
      rw [getD_set_self s.status k _ _ hilen]
      constructor
      · intro h; cases h
      · rintro ⟨_, hnot⟩
        exact absurd ((mem_append_singleton k k s.finished).mpr (Or.inr rfl)) hnot
    · rw [getD_set_ne s.status i k _ _ (fun h => hki h.symm)]
      rw [hinv.inprog_iff k hk]
      constructor
      · rintro ⟨h1, h2⟩
        refine ⟨h1, fun hmem3 => ?_⟩
        rcases (mem_append_singleton k i s.finished).mp hmem3 with h | rfl
        · exact h2 h
        · exact hki rfl
      · rintro ⟨h1, h2⟩
        exact ⟨h1, fun h => h2 ((mem_append_singleton k i s.finished).mpr (Or.inl h))⟩
  case subDeps =>
    intro p hp d hd
    rcases hinv.subDeps p hp d hd with ⟨o, ho, he⟩
    have hdi : d ≠ i := by
      intro h
      subst h
      rw [hip] at ho
      cases ho
    rw [getD_set_ne s.status i d _ _ (fun h => hdi h.symm)]
    exact ⟨o, ho, he⟩
  case subAction =>
    intro p hp name j hr hlk hj
    rcases hinv.subAction p hp name j hr hlk hj with ⟨o, ho, ha⟩
    have hji : j ≠ i := by
      intro h
      subst h
      rw [hip] at ho
      cases ho
    rw [getD_set_ne s.status i j _ _ (fun h => hji h.symm)]
    exact ⟨o, ho, ha⟩
  case complSrc =>
    intro k hk o ho
    by_cases hki : k = i
    · subst hki
      exact Or.inl ((mem_append_singleton k k s.finished).mpr (Or.inr rfl))
    · rw [getD_set_ne s.status i k _ _ (fun h => hki h.symm)] at ho
      rcases hinv.complSrc k hk o ho with h | h
      · exact Or.inl ((mem_append_singleton k i s.finished).mpr (Or.inl h))
      · exact Or.inr h
  case recvLe =>
    rw [List.length_append]
    exact Nat.le_trans hinv.recvLe (Nat.le_add_right _ _)
  case recvLeN => exact hinv.recvLeN
  case pendLt => exact hinv.pendLt
  case outWit =>
    intro k hk hout
    have hki : k ≠ i := by
      intro h
      subst h
      rw [getD_set_self s.status k _ _ hilen] at hout
      cases hout
    rw [getD_set_ne s.status i k _ _ (fun h => hki h.symm)] at hout
    rcases hinv.outWit k hk hout with h | ⟨d, hd, hdt⟩
    · exact Or.inl h
    · refine Or.inr ⟨d, hd, ?_⟩
      rw [List.take_append_of_le_length hinv.recvLe]
      exact hdt

lemma getElem?_of_lt {α : Type} (l : List α) (n : Nat) (hn : n < l.length)
    (dflt : α) : l[n]? = some (l.getD n dflt) := by
  rw [List.getD_eq_getElem l dflt hn]
  exact List.getElem?_eq_getElem hn

/-- The invariant is preserved by the coordinator receiving a
notification (lines 169–174). -/
lemma inv_recv (c : Config) (hw : WellFormed c) (s : State) (hinv : Inv c s)
    (d : Nat) (hp : s.pending = []) (hn : s.received < c.N)
    (hq : s.received < s.sends.length)
    (hd : s.sends.getD s.received 0 = d) :
    Inv c { s with received := s.received + 1, pending := c.dependents d } := by
  have hdmem : d ∈ s.sends := by rw [← hd]; exact mem_getD s.sends s.received hq 0
  have hdN : d < c.N := hinv.sendsLt d hdmem
  constructor
  case lenStatus => exact hinv.lenStatus
  case sendsLt => exact hinv.sendsLt
  case sendsNodup => exact hinv.sendsNodup
  case completed_iff_sent => exact hinv.completed_iff_sent
  case subLt => exact hinv.subLt
  case subNodup => exact hinv.subNodup
  case finSub => exact hinv.finSub
  case finNodup => exact hinv.finNodup
  case finCompleted => exact hinv.finCompleted
  case inprog_iff => exact hinv.inprog_iff
  case subDeps => exact hinv.subDeps
  case subAction => exact hinv.subAction
  case complSrc => exact hinv.complSrc
  case recvLe => exact Nat.succ_le_of_lt hq
  case recvLeN => exact Nat.succ_le_of_lt hn
  case pendLt => exact fun k hk => hw.depdLt d hdN k hk
  case outWit =>
    intro k hk hout
    rcases hinv.outWit k hk hout with h | ⟨d', hd', hdt⟩
    · rw [hp] at h; cases h
    · by_cases hdd : d' = d
      · subst hdd
        exact Or.inl (hw.consist k hk d' hdN hd')
      · refine Or.inr ⟨d', hd', ?_⟩
        rw [List.take_succ, getElem?_of_lt s.sends s.received hq 0, hd]
        intro hmem
        rcases List.mem_append.mp hmem with h | h
        · exact hdt h
        · rw [Option.toList_some, List.mem_singleton] at h
          exact hdd h

/-- The invariant is preserved by a coordinator poll (lines 165–167 and
line 173). -/
lemma inv_poll (c : Config) (hw : WellFormed c) (s t : State) (hinv : Inv c s)
    (j : Nat) (rest : List Nat) (hp : s.pending = j :: rest)
    (hpoll : poll c j s = some t) :
    Inv c { t with pending := rest } := by
  have hjN : j < c.N := hinv.pendLt j (by rw [hp]; exact List.mem_cons_self j rest)
  have hjlen : j < s.status.length := by rw [hinv.lenStatus]; exact hjN
  have hrestLt : ∀ k, k ∈ rest → k < c.N := by
    intro k hk
    exact hinv.pendLt k (by rw [hp]; exact List.mem_cons_of_mem j hk)
  rcases poll_shape c j s t hpoll with ⟨hts, hside⟩ | ⟨hnc, hcd, rfl⟩ |
    ⟨a, hout, hcd, hres, rfl⟩
  · -- no-op poll: only `pending` shrinks
    rw [hts]
    constructor
    case lenStatus => exact hinv.lenStatus
    case sendsLt => exact hinv.sendsLt
    case sendsNodup => exact hinv.sendsNodup
    case completed_iff_sent => exact hinv.completed_iff_sent
    case subLt => exact hinv.subLt
    case subNodup => exact hinv.subNodup
    case finSub => exact hinv.finSub
    case finNodup => exact hinv.finNodup
    case finCompleted => exact hinv.finCompleted
    case inprog_iff => exact hinv.inprog_iff
    case subDeps => exact hinv.subDeps
    case subAction => exact hinv.subAction
    case complSrc => exact hinv.complSrc
    case recvLe => exact hinv.recvLe
    case recvLeN => exact hinv.recvLeN
    case pendLt => exact hrestLt
    case outWit =>
      intro k hk hout
      rcases hinv.outWit k hk hout with h | ⟨d, hd, hdt⟩
      · rw [hp] at h
        rcases List.mem_cons.mp h with rfl | h
        · -- the polled step is still Outstanding: the poll was dormant
          rcases hside with ⟨o, ho⟩ | hcd | ⟨hip, _⟩
          · rw [hout] at ho; cases ho
          · rcases checkDeps_dormant s.status (c.deps k) hcd with ⟨dep, hdep, hnco⟩
            have hdepN : dep < c.N := hw.depsLt k hk dep hdep
            have hdepns : dep ∉ s.sends := by
              intro hmem
              rcases (hinv.completed_iff_sent dep hdepN).mpr hmem with ⟨o, ho⟩
              exact hnco o ho
            exact Or.inr ⟨dep, hdep, fun hmem => hdepns (List.take_subset _ _ hmem)⟩
          · rw [hout] at hip; cases hip
        · exact Or.inl h
      · exact Or.inr ⟨d, hd, hdt⟩
  · -- dependency-failure path
    have hjout : s.status.getD j Status.Outstanding = Status.Outstanding := by
      rcases hg : s.status.getD j Status.Outstanding with _ | _ | o
      · exfalso
        rcases (hinv.inprog_iff j hjN).mp hg with ⟨hjmap, hjnf⟩
        rcases List.mem_map.mp hjmap with ⟨p, hpmem, hfst⟩
        rcases checkDeps_hasError s.status (c.deps j) hcd with
          ⟨dep, hdepmem, o, hodep, herr⟩
        rcases hinv.subDeps p hpmem dep (by rw [hfst]; exact hdepmem) with
          ⟨o', ho', he'⟩
        rw [hodep] at ho'
        injection ho' with ho'
        rw [ho'] at herr
        rw [he'] at herr
        cases herr
      · rfl
      · exact absurd hg (hnc o)
    have hjns : j ∉ s.sends := by
      intro hmem
      rcases (hinv.completed_iff_sent j hjN).mpr hmem with ⟨o, ho⟩
      rw [hjout] at ho
      cases ho
    constructor
    case lenStatus =>
      show (s.status.set j (Status.Completed dnmOutcome)).length = c.N
      rw [List.length_set]
      exact hinv.lenStatus
    case sendsLt =>
      intro k hk
      rcases (mem_append_singleton k j s.sends).mp hk with h | rfl
      · exact hinv.sendsLt k h
      · exact hjN
    case sendsNodup => exact nodup_append_singleton s.sends j hinv.sendsNodup hjns
    case completed_iff_sent =>
      intro k hk
      by_cases hkj : k = j
      · subst hkj
        constructor
        · intro _
          exact (mem_append_singleton k k s.sends).mpr (Or.inr rfl)
        · intro _
          exact ⟨dnmOutcome, getD_set_self s.status k _ _ hjlen⟩
      · show (∃ o, (s.status.set j (Status.Completed dnmOutcome)).getD k
            Status.Outstanding = Status.Completed o) ↔ k ∈ s.sends ++ [j]
        rw [getD_set_ne s.status j k _ _ (fun h => hkj h.symm)]
        constructor
        · intro h
          exact (mem_append_singleton k j s.sends).mpr
            (Or.inl ((hinv.completed_iff_sent k hk).mp h))
        · intro h
          rcases (mem_append_singleton k j s.sends).mp h with h | rfl
          · exact (hinv.completed_iff_sent k hk).mpr h
          · exact absurd rfl hkj
    case subLt => exact hinv.subLt
    case subNodup => exact hinv.subNodup
    case finSub => exact hinv.finSub
    case finNodup => exact hinv.finNodup
    case finCompleted =>
      intro k hkfin
      have hkj : k ≠ j := by
        intro h
        subst h
        rcases hinv.finCompleted k hkfin with ⟨o, ho⟩
        rw [hjout] at ho
        cases ho
      show ∃ o, (s.status.set j (Status.Completed dnmOutcome)).getD k
          Status.Outstanding = Status.Completed o
      rw [getD_set_ne s.status j k _ _ (fun h => hkj h.symm)]
      exact hinv.finCompleted k hkfin
    case inprog_iff =>
      intro k hk
      by_cases hkj : k = j
      · subst hkj
        constructor
        · intro h
          rw [getD_set_self s.status k _ _ hjlen] at h
          cases h
        · intro hrhs
          exact absurd ((hinv.inprog_iff k hk).mpr hrhs) (by rw [hjout]; intro h; cases h)
      · show (s.status.set j (Status.Completed dnmOutcome)).getD k Status.Outstanding
            = Status.InProgress ↔ _
        rw [getD_set_ne s.status j k _ _ (fun h => hkj h.symm)]
        exact hinv.inprog_iff k hk
    case subDeps =>
      intro p hpmem dep hdep
      rcases hinv.subDeps p hpmem dep hdep with ⟨o, ho, he⟩
      have hdj : dep ≠ j := by
        intro h
        subst h
        rw [hjout] at ho
        cases ho
      show ∃ o, (s.status.set j (Status.Completed dnmOutcome)).getD dep
          Status.Outstanding = Status.Completed o ∧ o.error = none
      rw [getD_set_ne s.status j dep _ _ (fun h => hdj h.symm)]
      exact ⟨o, ho, he⟩
    case subAction =>
      intro p hpmem name k hr hlk hkdep
      rcases hinv.subAction p hpmem name k hr hlk hkdep with ⟨o, ho, ha⟩
      have hkj : k ≠ j := by
        intro h
        subst h
        rw [hjout] at ho
        cases ho
      show ∃ o, (s.status.set j (Status.Completed dnmOutcome)).getD k
          Status.Outstanding = Status.Completed o ∧ _
      rw [getD_set_ne s.status j k _ _ (fun h => hkj h.symm)]
      exact ⟨o, ho, ha⟩
    case complSrc =>
      intro k hk o ho
      by_cases hkj : k = j
      · subst hkj
        rw [getD_set_self s.status k _ _ hjlen] at ho
        injection ho with ho
        exact Or.inr ho.symm
      · rw [getD_set_ne s.status j k _ _ (fun h => hkj h.symm)] at ho
        exact hinv.complSrc k hk o ho
    case recvLe =>
      show s.received ≤ (s.sends ++ [j]).length
      rw [List.length_append]
      exact Nat.le_trans hinv.recvLe (Nat.le_add_right _ _)
    case recvLeN => exact hinv.recvLeN
    case pendLt => exact hrestLt
    case outWit =>
      intro k hk hko
      have hkj : k ≠ j := by
        intro h
        subst h
        rw [getD_set_self s.status k _ _ hjlen] at hko
        cases hko
      rw [getD_set_ne s.status j k _ _ (fun h => hkj h.symm)] at hko
      rcases hinv.outWit k hk hko with h | ⟨d, hd, hdt⟩
      · rw [hp] at h
        rcases List.mem_cons.mp h with rfl | h
        · exact absurd rfl hkj
        · exact Or.inl h
      · refine Or.inr ⟨d, hd, ?_⟩
        show d ∉ (s.sends ++ [j]).take s.received
        rw [List.take_append_of_le_length hinv.recvLe]
        exact hdt
  · -- dispatch path
    have hjnotsub : j ∉ s.submitted.map Prod.fst := by
      intro hjmap
      by_cases hjf : j ∈ s.finished
      · rcases hinv.finCompleted j hjf with ⟨o, ho⟩
        rw [hout] at ho
        cases ho
      · have := (hinv.inprog_iff j hjN).mpr ⟨hjmap, hjf⟩
        rw [hout] at this
        cases this
    have hjnfin : j ∉ s.finished := by
      intro hjf
      rcases hinv.finCompleted j hjf with ⟨o, ho⟩
      rw [hout] at ho
      cases ho
    have hmapApp : (s.submitted ++ [(j, a)]).map Prod.fst
        = s.submitted.map Prod.fst ++ [j] := by
      rw [List.map_append]
      rfl
    constructor
    case lenStatus =>
      show (s.status.set j Status.InProgress).length = c.N
      rw [List.length_set]
      exact hinv.lenStatus
    case sendsLt => exact hinv.sendsLt
    case sendsNodup => exact hinv.sendsNodup
    case completed_iff_sent =>
      intro k hk
      by_cases hkj : k = j
      · subst hkj
        constructor
        · rintro ⟨o, ho⟩
          rw [getD_set_self s.status k _ _ hjlen] at ho
          cases ho
        · intro hmem
          rcases (hinv.completed_iff_sent k hk).mpr hmem with ⟨o, ho⟩
          rw [hout] at ho
          cases ho
      · show (∃ o, (s.status.set j Status.InProgress).getD k Status.Outstanding
            = Status.Completed o) ↔ k ∈ s.sends
        rw [getD_set_ne s.status j k _ _ (fun h => hkj h.symm)]
        exact hinv.completed_iff_sent k hk
    case subLt =>
      intro p hpm
      rcases (mem_append_singleton p (j, a) s.submitted).mp hpm with h | rfl
      · exact hinv.subLt p h
      · exact hjN
    case subNodup =>
      show ((s.submitted ++ [(j, a)]).map Prod.fst).Nodup
      rw [hmapApp]
      exact nodup_append_singleton _ j hinv.subNodup hjnotsub
    case finSub =>
      intro k hkfin
      show k ∈ (s.submitted ++ [(j, a)]).map Prod.fst
      rw [hmapApp]
      exact (mem_append_singleton k j _).mpr (Or.inl (hinv.finSub k hkfin))
    case finNodup => exact hinv.finNodup
    case finCompleted =>
      intro k hkfin
      have hkj : k ≠ j := fun h => hjnfin (h ▸ hkfin)
      show ∃ o, (s.status.set j Status.InProgress).getD k Status.Outstanding
          = Status.Completed o
      rw [getD_set_ne s.status j k _ _ (fun h => hkj h.symm)]
      exact hinv.finCompleted k hkfin
    case inprog_iff =>
      intro k hk
      by_cases hkj : k = j
      · subst hkj
        show (s.status.set k Status.InProgress).getD k Status.Outstanding
            = Status.InProgress ↔
          (k ∈ (s.submitted ++ [(k, a)]).map Prod.fst ∧ k ∉ s.finished)
        rw [hmapApp]
        constructor
        · intro _
          exact ⟨(mem_append_singleton k k _).mpr (Or.inr rfl), hjnfin⟩
        · intro _
          exact getD_set_self s.status k _ _ hjlen
      · show (s.status.set j Status.InProgress).getD k Status.Outstanding
            = Status.InProgress ↔
          (k ∈ (s.submitted ++ [(j, a)]).map Prod.fst ∧ k ∉ s.finished)
        rw [hmapApp]
        rw [getD_set_ne s.status j k _ _ (fun h => hkj h.symm)]
        rw [hinv.inprog_iff k hk]
        constructor
        · rintro ⟨h1, h2⟩
          exact ⟨(mem_append_singleton k j _).mpr (Or.inl h1), h2⟩
        · rintro ⟨h1, h2⟩
          rcases (mem_append_singleton k j _).mp h1 with h | rfl
          · exact ⟨h, h2⟩
          · exact absurd rfl hkj
    case subDeps =>
      intro p hpm dep hdep
      rcases (mem_append_singleton p (j, a) s.submitted).mp hpm with h | rfl
      · rcases hinv.subDeps p h dep hdep with ⟨o, ho, he⟩
        have hdj : dep ≠ j := by
          intro hdj
          subst hdj
          rw [hout] at ho
          cases ho
        show ∃ o, (s.status.set j Status.InProgress).getD dep Status.Outstanding
            = Status.Completed o ∧ o.error = none
        rw [getD_set_ne s.status j dep _ _ (fun h => hdj h.symm)]
        exact ⟨o, ho, he⟩
      · rcases checkDeps_allOk s.status (c.deps j) hcd dep hdep with ⟨o, ho, he⟩
        have hdj : dep ≠ j := by
          intro hdj
          subst hdj
          rw [hout] at ho
          cases ho
        show ∃ o, (s.status.set j Status.InProgress).getD dep Status.Outstanding
            = Status.Completed o ∧ o.error = none
        rw [getD_set_ne s.status j dep _ _ (fun h => hdj h.symm)]
        exact ⟨o, ho, he⟩
    case subAction =>
      intro p hpm name k hr hlk hkdep
      rcases (mem_append_singleton p (j, a) s.submitted).mp hpm with h | rfl
      · rcases hinv.subAction p h name k hr hlk hkdep with ⟨o, ho, ha⟩
        have hkj : k ≠ j := by
          intro hkj
          subst hkj
          rw [hout] at ho
          cases ho
        show ∃ o, (s.status.set j Status.InProgress).getD k Status.Outstanding
            = Status.Completed o ∧ _
        rw [getD_set_ne s.status j k _ _ (fun h => hkj h.symm)]
        exact ⟨o, ho, ha⟩
      · -- the freshly dispatched step: read off `resolveRun`
        rcases checkDeps_allOk s.status (c.deps j) hcd k hkdep with ⟨o, ho, he⟩
        have hkj : k ≠ j := by
          intro hkj
          subst hkj
          rw [hout] at ho
          cases ho
        have hset : (s.status.set j Status.InProgress).getD k Status.Outstanding
            = Status.Completed o := by
          rw [getD_set_ne s.status j k _ _ (fun h => hkj h.symm)]
          exact ho
        refine ⟨o, hset, ?_⟩
        rw [hr] at hres
        simp only [resolveRun, hlk, hset] at hres
        rcases houtp : o.output with _ | out
        · rw [houtp] at hres
          injection hres with hres
          rw [← hres]
          rfl
        · rw [houtp] at hres
          injection hres with hres
          rw [← hres]
          rfl
    case complSrc =>
      intro k hk o ho
      by_cases hkj : k = j
      · subst hkj
        rw [getD_set_self s.status k _ _ hjlen] at ho
        cases ho
      · rw [getD_set_ne s.status j k _ _ (fun h => hkj h.symm)] at ho
        exact hinv.complSrc k hk o ho
    case recvLe => exact hinv.recvLe
    case recvLeN => exact hinv.recvLeN
    case pendLt => exact hrestLt
    case outWit =>
      intro k hk hko
      have hkj : k ≠ j := by
        intro h
        subst h
        rw [getD_set_self s.status k _ _ hjlen] at hko
        cases hko
      rw [getD_set_ne s.status j k _ _ (fun h => hkj h.symm)] at hko
      rcases hinv.outWit k hk hko with h | ⟨d, hd, hdt⟩
      · rw [hp] at h
        rcases List.mem_cons.mp h with rfl | h
        · exact absurd rfl hkj
        · exact Or.inl h
      · exact Or.inr ⟨d, hd, hdt⟩

/-- The invariant is preserved by every transition. -/
lemma inv_step (c : Config) (hw : WellFormed c) (s t : State)
    (hinv : Inv c s) (h : SysStep c s t) : Inv c t := by
  cases h with
  | worker i a hmem hnf => exact inv_worker c s hinv i a hmem hnf
  | recv d hp hn hq hd => exact inv_recv c hw s hinv d hp hn hq hd
  | pollStep t j rest hp hpoll => exact inv_poll c hw s t hinv j rest hp hpoll

/-- Every reachable state of a well-formed run satisfies the invariant. -/
lemma reachable_inv (c : Config) (hw : WellFormed c) (s : State)
    (h : Reachable c s) : Inv c s := by
  induction h with
  | refl => exact inv_init c
  | tail h1 h2 ih => exact inv_step c hw _ _ ih h2

/-! ### Progress and termination -/

/-- Bound on the cascade fan-out. -/
def maxDep (c : Config) : Nat :=
  ((List.range c.N).map (fun i => (c.dependents i).length)).foldr Nat.max 0

lemma le_maxDep (c : Config) (i : Nat) (hi : i < c.N) :
    (c.dependents i).length ≤ maxDep c :=
  le_foldr_max _ _ (List.mem_map.mpr ⟨i, List.mem_range.mpr hi, rfl⟩)

lemma applyEvs_fixed (s : State) (l : List Ev) :
    (applyEvs s l).received = s.received ∧ (applyEvs s l).finished = s.finished ∧
    (applyEvs s l).pending = s.pending := by
  induction l generalizing s with
  | nil => exact ⟨rfl, rfl, rfl⟩
  | cons e t ih =>
    rcases ih (applyEv s e) with ⟨h1, h2, h3⟩
    cases e with
    | send i => exact ⟨h1, h2, h3⟩
    | write i st => exact ⟨h1, h2, h3⟩
    | submit i a => exact ⟨h1, h2, h3⟩

lemma poll_fixed (c : Config) (j : Nat) (s t : State) (h : poll c j s = some t) :
    t.received = s.received ∧ t.finished = s.finished ∧ t.pending = s.pending := by
  unfold poll at h
  rcases htr : pollTrace c j s with _ | tr
  · rw [htr] at h; cases h
  · rw [htr] at h
    simp only [Option.map_some'] at h
    have hfix := applyEvs_fixed s tr
    rw [Option.some.inj h] at hfix
    exact hfix

/-- Termination measure: every transition strictly decreases it. -/
def progressMeasure (c : Config) (s : State) : Nat :=
  (c.N - s.received) * (maxDep c + 1) + s.pending.length + (c.N - s.finished.length)

lemma measure_decreasing (c : Config) (s t : State) (hinv : Inv c s)
    (h : SysStep c s t) : progressMeasure c t < progressMeasure c s := by
  cases h with
  | worker i a hmem hnf =>
    have hflt : ∀ k, k ∈ s.finished → k < c.N := by
      intro k hk
      rcases List.mem_map.mp (hinv.finSub k hk) with ⟨p, hp, rfl⟩
      exact hinv.subLt p hp
    have hfin_lt : s.finished.length < c.N := by
      have hnodup : (s.finished ++ [i]).Nodup :=
        nodup_append_singleton _ i hinv.finNodup hnf
      have hsub2 : (s.finished ++ [i]) ⊆ List.range c.N := by
        intro k hk
        rcases (mem_append_singleton k i s.finished).mp hk with hk | rfl
        · exact List.mem_range.mpr (hflt k hk)
        · exact List.mem_range.mpr (hinv.subLt (k, a) hmem)
      have hle := (List.Nodup.subperm hnodup hsub2).length_le
      rw [List.length_range, List.length_append, List.length_singleton] at hle
      omega
    show (c.N - s.received) * (maxDep c + 1) + s.pending.length +
        (c.N - (s.finished ++ [i]).length) <
      (c.N - s.received) * (maxDep c + 1) + s.pending.length +
        (c.N - s.finished.length)
    rw [List.length_append, List.length_singleton]
    generalize (c.N - s.received) * (maxDep c + 1) = A
    omega
  | recv d hp hn hq hd =>
    have hdN : d < c.N := hinv.sendsLt d
      (by rw [← hd]; exact mem_getD s.sends s.received hq 0)
    have hdep_le : (c.dependents d).length ≤ maxDep c := le_maxDep c d hdN
    show (c.N - (s.received + 1)) * (maxDep c + 1) + (c.dependents d).length +
        (c.N - s.finished.length) <
      (c.N - s.received) * (maxDep c + 1) + s.pending.length +
        (c.N - s.finished.length)
    obtain ⟨m, hm⟩ : ∃ m, c.N - s.received = m + 1 :=
      ⟨c.N - s.received - 1, by omega⟩
    have hm2 : c.N - (s.received + 1) = m := by omega
    rw [hm, hm2, Nat.succ_mul]
    generalize m * (maxDep c + 1) = A
    omega
  | pollStep t j rest hp hpoll =>
    rcases poll_fixed c j s t hpoll with ⟨h1, h2, h3⟩
    show (c.N - t.received) * (maxDep c + 1) + rest.length +
        (c.N - t.finished.length) <
      (c.N - s.received) * (maxDep c + 1) + s.pending.length +
        (c.N - s.finished.length)
    rw [h1, h2, hp]
    generalize (c.N - s.received) * (maxDep c + 1) = A
    simp only [List.length_cons]
    omega

/-- Core of deadlock-freedom: with no pending poll, no `InProgress` step
and every sent notification received, acyclicity forces every step out of
`Outstanding`. -/
lemma no_outstanding (c : Config) (hw : WellFormed c) (s : State) (hinv : Inv c s)
    (hpend : s.pending = [])
    (hnoIP : ∀ i, i < c.N →
      s.status.getD i Status.Outstanding ≠ Status.InProgress)
    (htake : s.sends.take s.received = s.sends) :
    ∀ i, i < c.N → s.status.getD i Status.Outstanding ≠ Status.Outstanding := by
  intro i
  refine @WellFounded.induction Nat (fun a b => a ∈ c.deps b) hw.acyclic
    (fun x => x < c.N →
      s.status.getD x Status.Outstanding ≠ Status.Outstanding) i ?_
  intro x IH hx hout
  rcases hinv.outWit x hx hout with hpx | ⟨d, hd, hdt⟩
  · rw [hpend] at hpx
    cases hpx
  · have hdN : d < c.N := hw.depsLt x hx d hd
    rw [htake] at hdt
    rcases hg : s.status.getD d Status.Outstanding with _ | _ | o
    · exact hnoIP d hdN hg
    · exact IH d hd hdN hg
    · exact hdt ((hinv.completed_iff_sent d hdN).mp ⟨o, hg⟩)

/-- Deadlock-freedom: as long as fewer than `N` notifications have been
received, some transition is enabled. -/
lemma progress (c : Config) (hw : WellFormed c) (s : State) (hinv : Inv c s)
    (hrecv : s.received < c.N) : ∃ t, SysStep c s t := by
  rcases hpend : s.pending with _ | ⟨j, rest⟩
  · by_cases hinf : ∃ p ∈ s.submitted, p.1 ∉ s.finished
    · rcases hinf with ⟨⟨i, a⟩, hmem, hnf⟩
      exact ⟨_, SysStep.worker s i a hmem hnf⟩
    · push_neg at hinf
      by_cases hq : s.received < s.sends.length
      · exact ⟨_, SysStep.recv s _ hpend hrecv hq rfl⟩
      · exfalso
        have hre : s.received = s.sends.length :=
          Nat.le_antisymm hinv.recvLe (Nat.not_lt.mp hq)
        have htake : s.sends.take s.received = s.sends := by
          rw [hre]
          exact List.take_length s.sends
        have hnoIP : ∀ i, i < c.N →
            s.status.getD i Status.Outstanding ≠ Status.InProgress := by
          intro i hi hip
          rcases (hinv.inprog_iff i hi).mp hip with ⟨hmap, hnf⟩
          rcases List.mem_map.mp hmap with ⟨p, hpmem, rfl⟩
          exact hnf (hinf p hpmem)
        have hnoOut := no_outstanding c hw s hinv hpend hnoIP htake
        have hall : ∀ i, i < c.N → i ∈ s.sends := by
          intro i hi
          rcases hg : s.status.getD i Status.Outstanding with _ | _ | o
          · exact absurd hg (hnoIP i hi)
          · exact absurd hg (hnoOut i hi)
          · exact (hinv.completed_iff_sent i hi).mp ⟨o, hg⟩
        have hsub : List.range c.N ⊆ s.sends := by
          intro x hx
          exact hall x (List.mem_range.mp hx)
        have hge := (List.Nodup.subperm (List.nodup_range c.N) hsub).length_le
        rw [List.length_range] at hge
        omega
  · have hjN : j < c.N := hinv.pendLt j
      (by rw [hpend]; exact List.mem_cons_self j rest)
    obtain ⟨t, ht⟩ := poll_total c hw j hjN s
    exact ⟨{ t with pending := rest }, SysStep.pollStep s t j rest hpend ht⟩

/-- Characterization of the final (stuck) state of a well-formed run:
exactly `N` notifications received and sent, every index sent exactly
once, and every step `Completed`. -/
lemma stuck_final (c : Config) (hw : WellFormed c) (s : State) (hinv : Inv c s)
    (hstuck : Stuck c s) :
    s.received = c.N ∧ s.sends.length = c.N ∧
    (∀ i, i < c.N → s.sends.count i = 1) ∧
    (∀ i, i < c.N → ∃ o, s.status.getD i Status.Outstanding = Status.Completed o) := by
  have hrecvN : s.received = c.N := by
    rcases Nat.lt_or_ge s.received c.N with h | h
    · rcases progress c hw s hinv h with ⟨t, ht⟩
      exact absurd ht (hstuck t)
    · exact Nat.le_antisymm hinv.recvLeN h
  have hlen_le : s.sends.length ≤ c.N := by
    have hsub : s.sends ⊆ List.range c.N := by
      intro x hx
      exact List.mem_range.mpr (hinv.sendsLt x hx)
    have hle := (List.Nodup.subperm hinv.sendsNodup hsub).length_le
    rw [List.length_range] at hle
    exact hle
  have hlen : s.sends.length = c.N := by
    have := hinv.recvLe
    omega
  have hpend : s.pending = [] := by
    rcases hpend : s.pending with _ | ⟨j, rest⟩
    · rfl
    · exfalso
      have hjN : j < c.N := hinv.pendLt j
        (by rw [hpend]; exact List.mem_cons_self j rest)
      obtain ⟨t, ht⟩ := poll_total c hw j hjN s
      exact hstuck _ (SysStep.pollStep s t j rest hpend ht)
  have hnoIP : ∀ i, i < c.N →
      s.status.getD i Status.Outstanding ≠ Status.InProgress := by
    intro i hi hip
    rcases (hinv.inprog_iff i hi).mp hip with ⟨hmap, hnf⟩
    rcases List.mem_map.mp hmap with ⟨p, hpmem, rfl⟩
    exact hstuck _ (SysStep.worker s p.1 p.2 hpmem hnf)
  have htake : s.sends.take s.received = s.sends := by
    rw [hrecvN, ← hlen]
    exact List.take_length s.sends
  have hnoOut := no_outstanding c hw s hinv hpend hnoIP htake
  have hcompl : ∀ i, i < c.N →
      ∃ o, s.status.getD i Status.Outstanding = Status.Completed o := by
    intro i hi
    rcases hg : s.status.getD i Status.Outstanding with _ | _ | o
    · exact absurd hg (hnoIP i hi)
    · exact absurd hg (hnoOut i hi)
    · exact ⟨o, rfl⟩
  refine ⟨hrecvN, hlen, ?_, hcompl⟩
  intro i hi
  exact List.count_eq_one_of_mem hinv.sendsNodup
    ((hinv.completed_iff_sent i hi).mp (hcompl i hi))

/-- Every reachable state reaches a stuck state (termination of the run). -/
lemma exists_stuck (c : Config) (hw : WellFormed c) :
    ∀ n s, Reachable c s → progressMeasure c s ≤ n →
      ∃ t, Relation.ReflTransGen (SysStep c) s t ∧ Stuck c t := by
  intro n
  induction n with
  | zero =>
    intro s hr hm
    by_cases hst : Stuck c s
    · exact ⟨s, Relation.ReflTransGen.refl, hst⟩
    · exfalso
      unfold Stuck at hst
      push_neg at hst
      rcases hst with ⟨t, ht⟩
      have := measure_decreasing c s t (reachable_inv c hw s hr) ht
      omega
  | succ n ih =>
    intro s hr hm
    by_cases hst : Stuck c s
    · exact ⟨s, Relation.ReflTransGen.refl, hst⟩
    · unfold Stuck at hst
      push_neg at hst
      rcases hst with ⟨t, ht⟩
      have hd := measure_decreasing c s t (reachable_inv c hw s hr) ht
      rcases ih t (Relation.ReflTransGen.tail hr ht) (by omega) with ⟨u, hu, hsu⟩
      exact ⟨u, Relation.ReflTransGen.head ht hu, hsu⟩

/-! ### Status monotonicity -/

lemma statusLe_refl (a : Status) : statusLe a a := by
  cases a with
  | InProgress => exact trivial
  | Outstanding => exact trivial
  | Completed o => exact rfl

/-- Every transition is pointwise monotone on the status table. -/
lemma step_mono (c : Config) (s t : State) (hinv : Inv c s) (h : SysStep c s t) :
    ∀ i, statusLe (s.status.getD i Status.Outstanding)
      (t.status.getD i Status.Outstanding) := by
  cases h with
  | worker i2 a hmem hnf =>
    intro i
    have hi2N : i2 < c.N := hinv.subLt (i2, a) hmem
    have hi2len : i2 < s.status.length := by rw [hinv.lenStatus]; exact hi2N
    by_cases hii : i = i2
    · subst hii
      have hip : s.status.getD i Status.Outstanding = Status.InProgress :=
        (hinv.inprog_iff i hi2N).mpr ⟨List.mem_map.mpr ⟨(i, a), hmem, rfl⟩, hnf⟩
      show statusLe (s.status.getD i Status.Outstanding)
        ((s.status.set i (Status.Completed (c.exec i a))).getD i Status.Outstanding)
      rw [hip, getD_set_self s.status i _ _ hi2len]
      exact trivial
    · show statusLe (s.status.getD i Status.Outstanding)
        ((s.status.set i2 (Status.Completed (c.exec i2 a))).getD i Status.Outstanding)
      rw [getD_set_ne s.status i2 i _ _ (fun h => hii h.symm)]
      exact statusLe_refl _
  | recv d hp hn hq hd => exact fun i => statusLe_refl _
  | pollStep t j rest hp hpoll =>
    intro i
    have hjN : j < c.N := hinv.pendLt j
      (by rw [hp]; exact List.mem_cons_self j rest)
    have hjlen : j < s.status.length := by rw [hinv.lenStatus]; exact hjN
    rcases poll_shape c j s t hpoll with ⟨hts, _⟩ | ⟨hnc, hcd, rfl⟩ |
      ⟨a, hout, hcd, hres, rfl⟩
    · rw [hts]
      exact statusLe_refl _
    · by_cases hji : i = j
      · subst hji
        show statusLe (s.status.getD i Status.Outstanding)
          ((s.status.set i (Status.Completed dnmOutcome)).getD i Status.Outstanding)
        rw [getD_set_self s.status i _ _ hjlen]
        rcases hg : s.status.getD i Status.Outstanding with _ | _ | o
        · exact trivial
        · exact trivial
        · exact absurd hg (hnc o)
      · show statusLe (s.status.getD i Status.Outstanding)
          ((s.status.set j (Status.Completed dnmOutcome)).getD i Status.Outstanding)
        rw [getD_set_ne s.status j i _ _ (fun h => hji h.symm)]
        exact statusLe_refl _
    · by_cases hji : i = j
      · subst hji
        show statusLe (s.status.getD i Status.Outstanding)
          ((s.status.set i Status.InProgress).getD i Status.Outstanding)
        rw [hout, getD_set_self s.status i _ _ hjlen]
        exact trivial
      · show statusLe (s.status.getD i Status.Outstanding)
          ((s.status.set j Status.InProgress).getD i Status.Outstanding)
        rw [getD_set_ne s.status j i _ _ (fun h => hji h.symm)]
        exact statusLe_refl _

/-! ### Constructing concrete runs -/

lemma sysStep_worker (c : Config) (s u : State) (i : Nat) (a : RunType)
    (h1 : (i, a) ∈ s.submitted) (h2 : i ∉ s.finished)
    (hu : u = { s with
      status := s.status.set i (Status.Completed (c.exec i a)),
      finished := s.finished ++ [i],
      sends := s.sends ++ [i] }) :
    SysStep c s u := by
  rw [hu]
  exact SysStep.worker s i a h1 h2

lemma sysStep_recv (c : Config) (s u : State) (d : Nat)
    (hp : s.pending = []) (hn : s.received < c.N)
    (hq : s.received < s.sends.length) (hd : s.sends.getD s.received 0 = d)
    (hu : u = { s with received := s.received + 1, pending := c.dependents d }) :
    SysStep c s u := by
  rw [hu]
  exact SysStep.recv s d hp hn hq hd

lemma sysStep_poll (c : Config) (s t u : State) (j : Nat) (rest : List Nat)
    (hp : s.pending = j :: rest) (hpoll : poll c j s = some t)
    (hu : u = { t with pending := rest }) : SysStep c s u := by
  rw [hu]
  exact SysStep.pollStep s t j rest hp hpoll

/-- A rank certificate gives well-foundedness (acyclicity on finite
graphs). -/
lemma wf_of_rank (r : Nat → Nat → Prop) (f : Nat → Nat)
    (h : ∀ a b, r a b → f a < f b) : WellFounded r :=
  Subrelation.wf (fun hab => h _ _ hab) (InvImage.wf f Nat.lt_wfRel.wf)

/-! ### Example run: step 0 fails, step 1 depends on step 0 -/

/-- Outcome of a failing step. -/
def outBoom : Outcome := { output := some "", error := some "boom", duration := 0 }

/-- Outcome of a successful step. -/
def outOk : Outcome := { output := some "ok", error := none, duration := 0 }

/-- Two steps `a` (index 0, fails with "boom") and `b` (index 1, depends
on `a`). -/
def ex2c : Config :=
  { N := 2
  , deps := fun i => if i = 1 then [0] else []
  , dependents := fun i => if i = 0 then [1] else []
  , runs := fun _ => RunType.Cmd "x"
  , lookup := fun n => if n = "a" then some 0 else if n = "b" then some 1 else none
  , exec := fun i _ => if i = 0 then outBoom else outOk }

def ex2s1 : State :=
  { status := [Status.InProgress, Status.Outstanding]
  , submitted := [(0, RunType.Cmd "x")], finished := [], sends := []
  , received := 0, pending := [1] }

def ex2s2 : State :=
  { status := [Status.InProgress, Status.Outstanding]
  , submitted := [(0, RunType.Cmd "x")], finished := [], sends := []
  , received := 0, pending := [] }

def ex2s3 : State :=
  { status := [Status.Completed outBoom, Status.Outstanding]
  , submitted := [(0, RunType.Cmd "x")], finished := [0], sends := [0]
  , received := 0, pending := [] }

def ex2s4 : State :=
  { status := [Status.Completed outBoom, Status.Outstanding]
  , submitted := [(0, RunType.Cmd "x")], finished := [0], sends := [0]
  , received := 1, pending := [1] }

def ex2s5 : State :=
  { status := [Status.Completed outBoom, Status.Completed dnmOutcome]
  , submitted := [(0, RunType.Cmd "x")], finished := [0], sends := [0, 1]
  , received := 1, pending := [] }

def ex2s6 : State :=
  { status := [Status.Completed outBoom, Status.Completed dnmOutcome]
  , submitted := [(0, RunType.Cmd "x")], finished := [0], sends := [0, 1]
  , received := 2, pending := [] }

lemma ex2_reach4 : Reachable ex2c ex2s4 := by
  have e1 : SysStep ex2c (initState ex2c) ex2s1 :=
    sysStep_poll ex2c (initState ex2c) { ex2s1 with pending := [0, 1] } ex2s1
      0 [1] (by decide) (by decide) (by decide)
  have e2 : SysStep ex2c ex2s1 ex2s2 :=
    sysStep_poll ex2c ex2s1 ex2s1 ex2s2 1 [] (by decide) (by decide) (by decide)
  have e3 : SysStep ex2c ex2s2 ex2s3 :=
    sysStep_worker ex2c ex2s2 ex2s3 0 (RunType.Cmd "x")
      (by decide) (by decide) (by decide)
  have e4 : SysStep ex2c ex2s3 ex2s4 :=
    sysStep_recv ex2c ex2s3 ex2s4 0 (by decide) (by decide) (by decide)
      (by decide) (by decide)
  exact Relation.ReflTransGen.tail (Relation.ReflTransGen.tail
    (Relation.ReflTransGen.tail (Relation.ReflTransGen.tail
      Relation.ReflTransGen.refl e1) e2) e3) e4

lemma ex2_reach6 : Reachable ex2c ex2s6 := by
  have e5 : SysStep ex2c ex2s4 ex2s5 :=
    sysStep_poll ex2c ex2s4 { ex2s5 with pending := [1] } ex2s5 1 []
      (by decide) (by decide) (by decide)
  have e6 : SysStep ex2c ex2s5 ex2s6 :=
    sysStep_recv ex2c ex2s5 ex2s6 1 (by decide) (by decide) (by decide)
      (by decide) (by decide)
  exact Relation.ReflTransGen.tail (Relation.ReflTransGen.tail ex2_reach4 e5) e6

lemma ex2_stuck : Stuck ex2c ex2s6 := by
  intro t ht
  cases ht with
  | worker i a hmem hnf =>
    have hmem2 : (i, a) ∈ [(0, RunType.Cmd "x")] := hmem
    rw [List.mem_singleton] at hmem2
    have hi : i = 0 := congrArg Prod.fst hmem2
    subst hi
    have hnf2 : (0 : Nat) ∉ [0] := hnf
    exact hnf2 (List.mem_singleton.mpr rfl)
  | recv d hp hn hq hd =>
    exact absurd (show (2 : Nat) < 2 from hn) (by decide)
  | pollStep t j rest hp hpoll =>
    cases (show ([] : List Nat) = j :: rest from hp)

lemma ex2_wf : WellFormed ex2c := by
  constructor
  case depsLt => decide
  case depdLt => decide
  case consist => decide
  case resolvable =>
    intro i hi name hr
    cases (show RunType.Cmd "x" = RunType.Step name from hr)
  case acyclic =>
    refine wf_of_rank _ (fun i => i) ?_
    intro a b hab
    by_cases hb : b = 1
    · subst hb
      have h2 : a ∈ [0] := hab
      rw [List.mem_singleton] at h2
      subst h2
      exact Nat.zero_lt_one
    · exfalso
      have h2 := hab
      simp only [ex2c] at h2
      rw [if_neg hb] at h2
      cases h2

/-! ### Example run: step 1 references step 0's output by name, but
step 0 completes without recording an output -/

/-- A successful outcome with no recorded output. -/
def outNone : Outcome := { output := none, error := none, duration := 0 }

/-- Steps `a` (index 0, succeeds with `output = None`) and `b` (index 1,
depends on `a`, action `RunType.Step "a"`). -/
def ex3c : Config :=
  { N := 2
  , deps := fun i => if i = 1 then [0] else []
  , dependents := fun i => if i = 0 then [1] else []
  , runs := fun i => if i = 1 then RunType.Step "a" else RunType.Cmd "w"
  , lookup := fun n => if n = "a" then some 0 else if n = "b" then some 1 else none
  , exec := fun i _ => if i = 0 then outNone else outOk }

def ex3s4 : State :=
  { status := [Status.Completed outNone, Status.Outstanding]
  , submitted := [(0, RunType.Cmd "w")], finished := [0], sends := [0]
  , received := 1, pending := [1] }

def ex3s5 : State :=
  { status := [Status.Completed outNone, Status.InProgress]
  , submitted := [(0, RunType.Cmd "w"), (1, RunType.Step "a")]
  , finished := [0], sends := [0], received := 1, pending := [] }

def ex3s7 : State :=
  { status := [Status.Completed outNone, Status.Completed outOk]
  , submitted := [(0, RunType.Cmd "w"), (1, RunType.Step "a")]
  , finished := [0, 1], sends := [0, 1], received := 2, pending := [] }

lemma ex3_reach4 : Reachable ex3c ex3s4 := by
  have e1 : SysStep ex3c (initState ex3c)
      { status := [Status.InProgress, Status.Outstanding]
      , submitted := [(0, RunType.Cmd "w")], finished := [], sends := []
      , received := 0, pending := [1] } :=
    sysStep_poll ex3c (initState ex3c)
      { status := [Status.InProgress, Status.Outstanding]
      , submitted := [(0, RunType.Cmd "w")], finished := [], sends := []
      , received := 0, pending := [0, 1] } _
      0 [1] (by decide) (by decide) (by decide)
  have e2 : SysStep ex3c
      { status := [Status.InProgress, Status.Outstanding]
      , submitted := [(0, RunType.Cmd "w")], finished := [], sends := []
      , received := 0, pending := [1] }
      { status := [Status.InProgress, Status.Outstanding]
      , submitted := [(0, RunType.Cmd "w")], finished := [], sends := []
      , received := 0, pending := [] } :=
    sysStep_poll ex3c _
      { status := [Status.InProgress, Status.Outstanding]
      , submitted := [(0, RunType.Cmd "w")], finished := [], sends := []
      , received := 0, pending := [1] } _
      1 [] (by decide) (by decide) (by decide)
  have e3 : SysStep ex3c
      { status := [Status.InProgress, Status.Outstanding]
      , submitted := [(0, RunType.Cmd "w")], finished := [], sends := []
      , received := 0, pending := [] }
      { status := [Status.Completed outNone, Status.Outstanding]
      , submitted := [(0, RunType.Cmd "w")], finished := [0], sends := [0]
      , received := 0, pending := [] } :=
    sysStep_worker ex3c _ _ 0 (RunType.Cmd "w") (by decide) (by decide) (by decide)
  have e4 : SysStep ex3c
      { status := [Status.Completed outNone, Status.Outstanding]
      , submitted := [(0, RunType.Cmd "w")], finished := [0], sends := [0]
      , received := 0, pending := [] } ex3s4 :=
    sysStep_recv ex3c _ ex3s4 0 (by decide) (by decide) (by decide)
      (by decide) (by decide)
  exact Relation.ReflTransGen.tail (Relation.ReflTransGen.tail
    (Relation.ReflTransGen.tail (Relation.ReflTransGen.tail
      Relation.ReflTransGen.refl e1) e2) e3) e4

lemma ex3_reach7 : Reachable ex3c ex3s7 := by
  have e5 : SysStep ex3c ex3s4 ex3s5 :=
    sysStep_poll ex3c ex3s4 { ex3s5 with pending := [1] } ex3s5 1 []
      (by decide) (by decide) (by decide)
  have e6 : SysStep ex3c ex3s5
      { status := [Status.Completed outNone, Status.Completed outOk]
      , submitted := [(0, RunType.Cmd "w"), (1, RunType.Step "a")]
      , finished := [0, 1], sends := [0, 1], received := 1, pending := [] } :=
    sysStep_worker ex3c ex3s5 _ 1 (RunType.Step "a")
      (by decide) (by decide) (by decide)
  have e7 : SysStep ex3c
      { status := [Status.Completed outNone, Status.Completed outOk]
      , submitted := [(0, RunType.Cmd "w"), (1, RunType.Step "a")]
      , finished := [0, 1], sends := [0, 1], received := 1, pending := [] }
      ex3s7 :=
    sysStep_recv ex3c _ ex3s7 1 (by decide) (by decide) (by decide)
      (by decide) (by decide)
  exact Relation.ReflTransGen.tail (Relation.ReflTransGen.tail
    (Relation.ReflTransGen.tail ex3_reach4 e5) e6) e7

/-! ### Example run: step 1 references step 0's output "42" by name -/

def out42 : Outcome := { output := some "42", error := none, duration := 0 }

/-- Steps `a` (index 0, succeeds with output "42") and `b` (index 1,
depends on `a`, action `RunType.Step "a"`). -/
def ex4c : Config :=
  { N := 2
  , deps := fun i => if i = 1 then [0] else []
  , dependents := fun i => if i = 0 then [1] else []
  , runs := fun i => if i = 1 then RunType.Step "a" else RunType.Cmd "w"
  , lookup := fun n => if n = "a" then some 0 else if n = "b" then some 1 else none
  , exec := fun i _ => if i = 0 then out42 else outOk }

def ex4s5 : State :=
  { status := [Status.Completed out42, Status.InProgress]
  , submitted := [(0, RunType.Cmd "w"), (1, RunType.Step "42")]
  , finished := [0], sends := [0], received := 1, pending := [] }

lemma ex4_reach5 : Reachable ex4c ex4s5 := by
  have e1 : SysStep ex4c (initState ex4c)
      { status := [Status.InProgress, Status.Outstanding]
      , submitted := [(0, RunType.Cmd "w")], finished := [], sends := []
      , received := 0, pending := [1] } :=
    sysStep_poll ex4c (initState ex4c)
      { status := [Status.InProgress, Status.Outstanding]
      , submitted := [(0, RunType.Cmd "w")], finished := [], sends := []
      , received := 0, pending := [0, 1] } _
      0 [1] (by decide) (by decide) (by decide)
  have e2 : SysStep ex4c
      { status := [Status.InProgress, Status.Outstanding]
      , submitted := [(0, RunType.Cmd "w")], finished := [], sends := []
      , received := 0, pending := [1] }
      { status := [Status.InProgress, Status.Outstanding]
      , submitted := [(0, RunType.Cmd "w")], finished := [], sends := []
      , received := 0, pending := [] } :=
    sysStep_poll ex4c _
      { status := [Status.InProgress, Status.Outstanding]
      , submitted := [(0, RunType.Cmd "w")], finished := [], sends := []
      , received := 0, pending := [1] } _
      1 [] (by decide) (by decide) (by decide)
  have e3 : SysStep ex4c
      { status := [Status.InProgress, Status.Outstanding]
      , submitted := [(0, RunType.Cmd "w")], finished := [], sends := []
      , received := 0, pending := [] }
      { status := [Status.Completed out42, Status.Outstanding]
      , submitted := [(0, RunType.Cmd "w")], finished := [0], sends := [0]
      , received := 0, pending := [] } :=
    sysStep_worker ex4c _ _ 0 (RunType.Cmd "w") (by decide) (by decide) (by decide)
  have e4 : SysStep ex4c
      { status := [Status.Completed out42, Status.Outstanding]
      , submitted := [(0, RunType.Cmd "w")], finished := [0], sends := [0]
      , received := 0, pending := [] }
      { status := [Status.Completed out42, Status.Outstanding]
      , submitted := [(0, RunType.Cmd "w")], finished := [0], sends := [0]
      , received := 1, pending := [1] } :=
    sysStep_recv ex4c _ _ 0 (by decide) (by decide) (by decide)
      (by decide) (by decide)
  have e5 : SysStep ex4c
      { status := [Status.Completed out42, Status.Outstanding]
      , submitted := [(0, RunType.Cmd "w")], finished := [0], sends := [0]
      , received := 1, pending := [1] } ex4s5 :=
    sysStep_poll ex4c _ { ex4s5 with pending := [1] } ex4s5 1 []
      (by decide) (by decide) (by decide)
  exact Relation.ReflTransGen.tail (Relation.ReflTransGen.tail
    (Relation.ReflTransGen.tail (Relation.ReflTransGen.tail
      (Relation.ReflTransGen.tail Relation.ReflTransGen.refl e1) e2) e3) e4) e5

lemma ex4_wf : WellFormed ex4c := by
  constructor
  case depsLt => decide
  case depdLt => decide
  case consist => decide
  case resolvable =>
    intro i hi name hr
    by_cases h1 : i = 1
    · subst h1
      have h2 : RunType.Step "a" = RunType.Step name := hr
      injection h2 with h2
      subst h2
      decide
    · exfalso
      have h2 := hr
      simp only [ex4c] at h2
      rw [if_neg h1] at h2
      cases h2
  case acyclic =>
    refine wf_of_rank _ (fun i => i) ?_
    intro a b hab
    by_cases hb : b = 1
    · subst hb
      have h2 : a ∈ [0] := hab
      rw [List.mem_singleton] at h2
      subst h2
      exact Nat.zero_lt_one
    · exfalso
      have h2 := hab
      simp only [ex4c] at h2
      rw [if_neg hb] at h2
      cases h2

/-! ### A configuration whose name reference does not resolve -/

/-- One step whose action references the name "ghost", which is not the
name of any step: the lookup misses. -/
def cBad : Config :=
  { N := 1
  , deps := fun _ => []
  , dependents := fun _ => []
  , runs := fun _ => RunType.Step "ghost"
  , lookup := fun _ => none
  , exec := fun _ _ => outOk }

/-! ### Outcome assembly (lines 183–187) -/

lemma assemble_length (steps : List StepE) (sts : List Status) :
    (assemble steps sts).length = steps.length := by
  induction steps generalizing sts with
  | nil => cases sts <;> rfl
  | cons s ss ih =>
    cases sts with
    | nil => rfl
    | cons q qs =>
      show ((match q with
        | Status.Completed o => { s with outcome := some o }
        | _ => s) :: assemble ss qs).length = (s :: ss).length
      rw [List.length_cons, List.length_cons, ih qs]

lemma assemble_outcome (steps : List StepE) (sts : List Status) (i : Nat)
    (dflt : StepE) (o : Outcome) (hi : i < steps.length)
    (ho : sts.getD i Status.Outstanding = Status.Completed o) :
    ((assemble steps sts).getD i dflt).outcome = some o := by
  induction steps generalizing sts i with
  | nil => cases hi
  | cons s ss ih =>
    cases sts with
    | nil =>
      cases (show Status.Outstanding = Status.Completed o from ho)
    | cons q qs =>
      cases i with
      | zero =>
        have hq : q = Status.Completed o := ho
        subst hq
        rfl
      | succ k =>
        have hk : k < ss.length := Nat.lt_of_succ_lt_succ hi
        exact ih qs k hk ho

/-- The step entities of the two-step example. -/
def ex2steps : List StepE :=
  [ { name := "a", run := RunType.Cmd "x", outcome := none }
  , { name := "b", run := RunType.Cmd "x", outcome := none } ]

/-- The three no-op situations of `poll` produce the empty trace. -/
lemma pollTrace_noop (c : Config) (j : Nat) (s : State)
    (h : (∃ o, s.status.getD j Status.Outstanding = Status.Completed o)
      ∨ checkDeps s.status (c.deps j) = DepCheck.dormant
      ∨ (s.status.getD j Status.Outstanding = Status.InProgress
          ∧ checkDeps s.status (c.deps j) = DepCheck.allOk)) :
    pollTrace c j s = some [] := by
  unfold pollTrace
  rcases h with ⟨o, ho⟩ | hcd | ⟨hip, hcd⟩
  · rw [ho]
  · rcases hst : s.status.getD j Status.Outstanding with _ | _ | o
    · rw [hcd]
    · rw [hcd]
    · rfl
  · rw [hip, hcd]
    rfl

/-! ### Claim theorems -/

/-- Claim C1: for every input whose dependency graph is acyclic (and
well-formed, as `run_steps` and the external `create_graph` establish),
the run always terminates; in the final state every step's status is
`Completed`, exactly one notification was sent on the channel per step
index (`count i = 1`, whether the step ran or was short-circuited by the
dependency-failure path), and the coordinator loop has returned after
receiving exactly `N` notifications. -/
theorem c1_completion_and_notification_count (c : Config) (hw : WellFormed c) :
    (∀ s, Reachable c s →
      ∃ t, Relation.ReflTransGen (SysStep c) s t ∧ Stuck c t)
  ∧ (∀ s, Reachable c s → Stuck c s →
      s.received = c.N ∧ s.sends.length = c.N ∧
      (∀ i, i < c.N → s.sends.count i = 1) ∧
      (∀ i, i < c.N →
        ∃ o, s.status.getD i Status.Outstanding = Status.Completed o)) := by
  constructor
  · intro s hr
    exact exists_stuck c hw (progressMeasure c s) s hr (Nat.le_refl _)
  · intro s hr hstuck
    exact stuck_final c hw s (reachable_inv c hw s hr) hstuck

/-- Witness for C1 at the two-step example run. -/
theorem c1_witness :
    WellFormed ex2c ∧
    (ex2s6.received = ex2c.N ∧ ex2s6.sends.length = ex2c.N ∧
      (∀ i, i < ex2c.N → ex2s6.sends.count i = 1) ∧
      (∀ i, i < ex2c.N →
        ∃ o, ex2s6.status.getD i Status.Outstanding = Status.Completed o)) :=
  ⟨ex2_wf, (c1_completion_and_notification_count ex2c ex2_wf).2 ex2s6
    ex2_reach6 ex2_stuck⟩

/-- Claim C2: if step `A`'s final outcome has its error set and `B`
depends on `A` directly or transitively, then `B` is never submitted to
the worker pool (the external execute contract is never invoked for
`B`), and `B`'s final outcome is exactly the synthetic dependency-not-met
outcome (empty output, fixed error text, zero duration). -/
theorem c2_failure_propagation (c : Config) (hw : WellFormed c) (s : State)
    (hr : Reachable c s) (hstuck : Stuck c s) (A B : Nat) (hB : B < c.N)
    (hchain : Relation.TransGen (fun x y => x ∈ c.deps y) A B)
    (oA : Outcome) (hA : s.status.getD A Status.Outstanding = Status.Completed oA)
    (herr : oA.error.isSome = true) :
    (∀ a, (B, a) ∉ s.submitted) ∧
    s.status.getD B Status.Outstanding = Status.Completed dnmOutcome := by
  have hinv := reachable_inv c hw s hr
  have hall := (stuck_final c hw s hinv hstuck).2.2.2
  have key : ∀ y x, y ∈ c.deps x → x < c.N →
      (∀ oy, s.status.getD y Status.Outstanding = Status.Completed oy →
        oy.error.isSome = true) →
      (∀ a, (x, a) ∉ s.submitted) ∧
      s.status.getD x Status.Outstanding = Status.Completed dnmOutcome := by
    intro y x hyx hx hyerr
    have hnotsub : ∀ a, (x, a) ∉ s.submitted := by
      intro a hmem
      rcases hinv.subDeps (x, a) hmem y hyx with ⟨oy, hoy, hoe⟩
      have hsome := hyerr oy hoy
      rw [hoe] at hsome
      cases hsome
    refine ⟨hnotsub, ?_⟩
    rcases hall x hx with ⟨o, ho⟩
    rcases hinv.complSrc x hx o ho with hfin | rfl
    · exfalso
      rcases List.mem_map.mp (hinv.finSub x hfin) with ⟨p, hpmem, hpeq⟩
      rcases p with ⟨p1, p2⟩
      have hp1 : p1 = x := hpeq
      subst hp1
      exact hnotsub p2 hpmem
    · exact ho
  revert hB
  induction hchain with
  | single h =>
    intro hB
    refine key A _ h hB ?_
    intro oy hoy
    rw [hA] at hoy
    injection hoy with h2
    rw [← h2]
    exact herr
  | tail hAy hyB ih =>
    intro hC
    rename_i y C
    have hyN : y < c.N := hw.depsLt C hC y hyB
    rcases ih hyN with ⟨hysub, hyst⟩
    refine key y C hyB hC ?_
    intro oy hoy
    rw [hyst] at hoy
    injection hoy with h2
    rw [← h2]
    rfl

/-- Witness for C2 at the two-step example run: step 0 failed with
"boom", step 1 depends on it, ends with the synthetic outcome and was
never submitted. -/
theorem c2_witness :
    (∀ a, (1, a) ∉ ex2s6.submitted) ∧
    ex2s6.status.getD 1 Status.Outstanding = Status.Completed dnmOutcome :=
  c2_failure_propagation ex2c ex2_wf ex2s6 ex2_reach6 ex2_stuck 0 1 (by decide)
    (Relation.TransGen.single (by decide)) outBoom (by decide) (by decide)

/-- Claim C3: over a whole run, work is submitted to the pool at most
once per step index (the submission history has no duplicate index); a
status that has left `Outstanding` never returns to it; and a poll that
finds `status[i]` already `InProgress` or `Completed` never submits
work (the dispatch guard at line 89 tests exactly `Outstanding`). -/
theorem c3_no_duplicate_dispatch (c : Config) (hw : WellFormed c) (s : State)
    (hr : Reachable c s) :
    ((s.submitted.map Prod.fst).Nodup)
  ∧ (∀ t, SysStep c s t → ∀ i,
      s.status.getD i Status.Outstanding ≠ Status.Outstanding →
      t.status.getD i Status.Outstanding ≠ Status.Outstanding)
  ∧ (∀ i t, poll c i s = some t →
      s.status.getD i Status.Outstanding ≠ Status.Outstanding →
      t.submitted = s.submitted) := by
  have hinv := reachable_inv c hw s hr
  refine ⟨hinv.subNodup, ?_, ?_⟩
  · intro t ht i hne hout
    have hmono := step_mono c s t hinv ht i
    rw [hout] at hmono
    rcases hg : s.status.getD i Status.Outstanding with _ | _ | o
    · rw [hg] at hmono
      exact hmono
    · exact hne hg
    · rw [hg] at hmono
      exact hmono
  · intro i t hpoll hne
    rcases poll_shape c i s t hpoll with ⟨hts, _⟩ | ⟨_, _, rfl⟩ |
      ⟨a, hout, _, _, rfl⟩
    · rw [hts]
    · rfl
    · exact absurd hout hne

/-- Witness for C3 at the two-step example run. -/
theorem c3_witness :
    WellFormed ex2c ∧
    ((ex2s6.submitted.map Prod.fst).Nodup ∧
      (∀ t, SysStep ex2c ex2s6 t → ∀ i,
        ex2s6.status.getD i Status.Outstanding ≠ Status.Outstanding →
        t.status.getD i Status.Outstanding ≠ Status.Outstanding) ∧
      (∀ i t, poll ex2c i ex2s6 = some t →
        ex2s6.status.getD i Status.Outstanding ≠ Status.Outstanding →
        t.submitted = ex2s6.submitted)) :=
  ⟨ex2_wf, c3_no_duplicate_dispatch ex2c ex2_wf ex2s6 ex2_reach6⟩

/-- Claim C4: in every reachable state exactly `N` statuses exist (the
table keeps length `N`), and along every transition each status
progresses monotonically through `Outstanding` → `InProgress` →
`Completed`: `statusLe` forbids leaving `Completed` (even changing the
recorded outcome) and moving from `InProgress` back to `Outstanding`. -/
theorem c4_status_monotonic (c : Config) (hw : WellFormed c) (s : State)
    (hr : Reachable c s) :
    s.status.length = c.N ∧
    ∀ t, SysStep c s t → ∀ i,
      statusLe (s.status.getD i Status.Outstanding)
        (t.status.getD i Status.Outstanding) := by
  have hinv := reachable_inv c hw s hr
  exact ⟨hinv.lenStatus, fun t ht => step_mono c s t hinv ht⟩

/-- Witness for C4 at the two-step example run. -/
theorem c4_witness :
    WellFormed ex2c ∧
    (ex2s6.status.length = ex2c.N ∧
      ∀ t, SysStep ex2c ex2s6 t → ∀ i,
        statusLe (ex2s6.status.getD i Status.Outstanding)
          (t.status.getD i Status.Outstanding)) :=
  ⟨ex2_wf, c4_status_monotonic ex2c ex2_wf ex2s6 ex2_reach6⟩

/-- Claim C5, counterexample: the claim asserts that at dispatch time the
referenced step's recorded output is available and the executed action is
exactly that output string.  In this reachable run, step 1 references
step "a" (index 0, a dependency), all dependencies are `Completed`
without error at dispatch, yet step 0's recorded outcome has `output =
none`: no output is available, and the only work item ever submitted for
step 1 carries the literal name `"a"` as its action, not an output. -/
theorem c5_counterexample :
    Reachable ex3c ex3s7 ∧
    ex3s7.status.getD 0 Status.Outstanding = Status.Completed outNone ∧
    outNone.output = none ∧
    (1, RunType.Step "a") ∈ ex3s7.submitted ∧
    (∀ p ∈ ex3s7.submitted, p.1 = 1 → p.2 = RunType.Step "a") :=
  ⟨ex3_reach7, by decide, rfl, by decide, by decide⟩

/-- Claim C5, amended: for every submitted (hence executed) work item of a
step whose `RunType` references another step by name, provided the
referenced step is a dependency edge of the step, the referenced step's
outcome is `Completed` without error at dispatch time, and the action
submitted is that outcome's output when one is present — when the outcome
records no output, the referenced name is passed verbatim
(`Option.getD` collapses the two cases). -/
theorem c5_output_substitution (c : Config) (hw : WellFormed c) (s : State)
    (hr : Reachable c s) (i : Nat) (a : RunType) (hsub : (i, a) ∈ s.submitted)
    (name : String) (j : Nat) (hrun : c.runs i = RunType.Step name)
    (hlk : c.lookup name = some j) (hdep : j ∈ c.deps i) :
    ∃ o, s.status.getD j Status.Outstanding = Status.Completed o ∧
      o.error = none ∧ a = RunType.Step (o.output.getD name) := by
  have hinv := reachable_inv c hw s hr
  rcases hinv.subAction (i, a) hsub name j hrun hlk hdep with ⟨o, ho, ha⟩
  rcases hinv.subDeps (i, a) hsub j hdep with ⟨o', ho', he'⟩
  rw [ho] at ho'
  injection ho' with ho'
  refine ⟨o, ho, ?_, ha⟩
  rw [ho']
  exact he'

/-- Witness for the amended C5: step 1 references step "a" whose recorded
output is "42"; the submitted action is `RunType.Step "42"`. -/
theorem c5_witness :
    WellFormed ex4c ∧
    (∃ o, ex4s5.status.getD 0 Status.Outstanding = Status.Completed o ∧
      o.error = none ∧ RunType.Step "42" = RunType.Step (o.output.getD "a")) :=
  ⟨ex4_wf, c5_output_substitution ex4c ex4_wf ex4s5 ex4_reach5 1
    (RunType.Step "42") (by decide) "a" 0 (by decide) (by decide) (by decide)⟩

/-- Claim C6, counterexample: the claim asserts the table write
happens-before the notification in both completion paths.  In the
dependency-failure path the opposite holds: the trace emitted by a
reachable failure-path poll is `[send, write]` — it contains a send of
the index and a write to the index, but no write occurs before the
send. -/
theorem c6_counterexample :
    Reachable ex2c ex2s4 ∧
    pollTrace ex2c 1 ex2s4 =
      some [Ev.send 1, Ev.write 1 (Status.Completed dnmOutcome)] ∧
    writeBeforeSendB 1 [Ev.send 1, Ev.write 1 (Status.Completed dnmOutcome)]
      = false ∧
    ([Ev.send 1, Ev.write 1 (Status.Completed dnmOutcome)].any (isSend 1))
      = true ∧
    ([Ev.send 1, Ev.write 1 (Status.Completed dnmOutcome)].any (isWrite 1))
      = true :=
  ⟨ex2_reach4, by decide, by decide, by decide, by decide⟩

/-- Claim C6, amended: in the dependency-failure path the notification is
emitted before the table write (lines 63–65 precede lines 81–85), but
both effects lie in the same critical section of one `poll` call: by the
time `poll` returns — and the coordinator, which serializes all polls,
can only receive the notification after that — the status table already
records `Completed` with the synthetic outcome, so the write is visible
to the dependent's next poll.  (In the worker path the write at line 117
directly precedes the send at line 118.) -/
theorem c6_failure_notification_visibility (c : Config) (j : Nat) (s t : State)
    (tr : List Ev) (hj : j < s.status.length)
    (htr : pollTrace c j s = some tr) (hsend : tr.any (isSend j) = true)
    (hpoll : poll c j s = some t) :
    t.status.getD j Status.Outstanding = Status.Completed dnmOutcome := by
  unfold poll at hpoll
  rw [htr] at hpoll
  simp only [Option.map_some'] at hpoll
  have ht : applyEvs s tr = t := Option.some.inj hpoll
  unfold pollTrace at htr
  split at htr
  · injection htr with htr
    subst htr
    simp at hsend
  · split at htr
    · injection htr with htr
      subst htr
      simp at hsend
    · injection htr with htr
      subst htr
      rw [← ht]
      exact getD_set_self s.status j _ _ hj
    · split at htr
      · split at htr
        · cases htr
        · injection htr with htr
          subst htr
          simp [isSend] at hsend
      · injection htr with htr
        subst htr
        simp at hsend

/-- Witness for the amended C6 at the failure-path poll of the two-step
example run. -/
theorem c6_witness :
    1 < ex2s4.status.length ∧
    ({ ex2s5 with pending := [1] } : State).status.getD 1 Status.Outstanding
      = Status.Completed dnmOutcome :=
  ⟨by decide, c6_failure_notification_visibility ex2c 1 ex2s4
    { ex2s5 with pending := [1] }
    [Ev.send 1, Ev.write 1 (Status.Completed dnmOutcome)]
    (by decide) (by decide) (by decide) (by decide)⟩

/-- Claim C7: `run_steps` returns an error exactly for the structural
failures — in the embedding only graph construction can fail: the channel
cannot close while the loop runs (the original sender outlives it), the
`Arc` is uniquely reclaimable after the join, and the lock cannot be
poisoned since the execute contract is total.  An individual step's
execution failure never aborts the run: the theorem holds for every
execute oracle, including ones that always set `error`.  On success every
step entity's outcome is populated from its `Completed` status. -/
theorem c7_structural_errors_only (c : Config) (hw : WellFormed c)
    (steps : List StepE) (hlen : steps.length = c.N) (e : String) (s : State)
    (hr : Reachable c s) (hstuck : Stuck c s) (dflt : StepE) :
    run_steps (Except.error e) steps s = Except.error e ∧
    ∃ out, run_steps (Except.ok c) steps s = Except.ok out ∧
      out.length = steps.length ∧
      ∀ i, i < c.N → ∃ o,
        s.status.getD i Status.Outstanding = Status.Completed o ∧
        (out.getD i dflt).outcome = some o := by
  refine ⟨rfl, assemble steps s.status, rfl, assemble_length steps s.status, ?_⟩
  intro i hi
  rcases (stuck_final c hw s (reachable_inv c hw s hr) hstuck).2.2.2 i hi with
    ⟨o, ho⟩
  exact ⟨o, ho, assemble_outcome steps s.status i dflt o (by omega) ho⟩

/-- Witness for C7 at the two-step example run: the graph error is
propagated verbatim, and on success both outcomes are populated even
though step 0 failed and step 1 was short-circuited. -/
theorem c7_witness :
    WellFormed ex2c ∧
    (run_steps (Except.error "dependency cycle") ex2steps ex2s6
        = Except.error "dependency cycle" ∧
      ∃ out, run_steps (Except.ok ex2c) ex2steps ex2s6 = Except.ok out ∧
        out.length = ex2steps.length ∧
        ∀ i, i < ex2c.N → ∃ o,
          ex2s6.status.getD i Status.Outstanding = Status.Completed o ∧
          (out.getD i { name := "", run := RunType.Cmd "", outcome := none }).outcome
            = some o) :=
  ⟨ex2_wf, c7_structural_errors_only ex2c ex2_wf ex2steps rfl
    "dependency cycle" ex2s6 ex2_reach6 ex2_stuck
    { name := "", run := RunType.Cmd "", outcome := none }⟩

/-- Claim C8: `poll` is idempotent.  A second poll of the same index from
the state a successful poll produced performs no effect at all (its trace
is empty) and leaves the state unchanged; and a poll of an
already-`Completed` index is a no-op. -/
theorem c8_poll_idempotent (c : Config) (j : Nat) (s t : State)
    (hj : j < s.status.length) (h : poll c j s = some t) :
    pollTrace c j t = some [] ∧ poll c j t = some t ∧
    (∀ o, s.status.getD j Status.Outstanding = Status.Completed o → t = s) := by
  rcases poll_shape c j s t h with ⟨hts, hside⟩ | ⟨hnc, hcd, rfl⟩ |
    ⟨a, hout, hcd, hres, rfl⟩
  · have htr : pollTrace c j t = some [] := by
      rw [hts]
      exact pollTrace_noop c j s hside
    refine ⟨htr, ?_, fun o _ => hts⟩
    unfold poll
    rw [htr, hts]
    rfl
  · have hcompl : (s.status.set j (Status.Completed dnmOutcome)).getD j
        Status.Outstanding = Status.Completed dnmOutcome :=
      getD_set_self s.status j _ _ hj
    have htr : pollTrace c j
        { s with
          status := s.status.set j (Status.Completed dnmOutcome),
          sends := s.sends ++ [j] } = some [] :=
      pollTrace_noop c j _ (Or.inl ⟨dnmOutcome, hcompl⟩)
    refine ⟨htr, ?_, fun o hco => absurd hco (hnc o)⟩
    unfold poll
    rw [htr]
    rfl
  · have hdne : ∀ d, d ∈ c.deps j → d ≠ j := by
      intro d hd he
      rcases checkDeps_allOk s.status (c.deps j) hcd d hd with ⟨o, ho, _⟩
      subst he
      rw [hout] at ho
      cases ho
    have hcd2 : checkDeps (s.status.set j Status.InProgress) (c.deps j)
        = DepCheck.allOk := by
      rw [checkDeps_congr s.status (s.status.set j Status.InProgress) (c.deps j)
        (fun d hd => getD_set_ne s.status j d _ _
          (fun he => hdne d hd he.symm))]
      exact hcd
    have hip : (s.status.set j Status.InProgress).getD j Status.Outstanding
        = Status.InProgress := getD_set_self s.status j _ _ hj
    have htr : pollTrace c j
        { s with
          status := s.status.set j Status.InProgress,
          submitted := s.submitted ++ [(j, a)] } = some [] :=
      pollTrace_noop c j _ (Or.inr (Or.inr ⟨hip, hcd2⟩))
    refine ⟨htr, ?_, ?_⟩
    · unfold poll
      rw [htr]
      rfl
    · intro o hco
      rw [hout] at hco
      cases hco

/-- Witness for C8 at the initial dispatch of the two-step example run. -/
theorem c8_witness :
    0 < (initState ex2c).status.length ∧
    (pollTrace ex2c 0 { ex2s1 with pending := [0, 1] } = some [] ∧
      poll ex2c 0 { ex2s1 with pending := [0, 1] }
        = some { ex2s1 with pending := [0, 1] } ∧
      (∀ o, (initState ex2c).status.getD 0 Status.Outstanding
        = Status.Completed o → { ex2s1 with pending := [0, 1] } = initState ex2c)) :=
  ⟨by decide, c8_poll_idempotent ex2c 0 (initState ex2c)
    { ex2s1 with pending := [0, 1] } (by decide) (by decide)⟩

/-- Claim C9: an input whose `RunType` references a name that is not the
name of any step makes `poll` panic at dispatch time (the `unwrap` of the
name lookup at line 97, modelled as `pollTrace` returning `none`) instead
of recording an error outcome or returning an error: on `cBad` — a single
step with no dependencies whose action references the unknown name
"ghost" — the very first poll is `none`. -/
theorem c9_missing_name_panics :
    pollTrace cBad 0 (initState cBad) = none ∧
    cBad.runs 0 = RunType.Step "ghost" ∧ cBad.lookup "ghost" = none :=
  ⟨by decide, rfl, rfl⟩

/-- Claim C10: the name-to-output rewrite happens only when the
referenced step is `Completed` with an output present.  If at dispatch
time (after the `InProgress` write, exactly as the source reads the
table) the referenced index is not `Completed`, or its outcome's output
is `none`, the action submitted to the pool — and hence passed to the
external execute contract — is the literal referenced name, verbatim. -/
theorem c10_substitution_guard (c : Config) (i : Nat) (s t : State)
    (a : RunType) (name : String) (j : Nat)
    (hpoll : poll c i s = some t)
    (hsub : t.submitted = s.submitted ++ [(i, a)])
    (hrun : c.runs i = RunType.Step name)
    (hlk : c.lookup name = some j)
    (hnc : ∀ o, (s.status.set i Status.InProgress).getD j Status.Outstanding
      = Status.Completed o → o.output = none) :
    a = RunType.Step name := by
  rcases poll_shape c i s t hpoll with ⟨hts, _⟩ | ⟨_, _, rfl⟩ |
    ⟨b, hout, hcd, hres, rfl⟩
  · exfalso
    rw [hts] at hsub
    have hlen2 := congrArg List.length hsub
    rw [List.length_append, List.length_singleton] at hlen2
    omega
  · exfalso
    have hs2 : s.submitted = s.submitted ++ [(i, a)] := hsub
    have hlen2 := congrArg List.length hs2
    rw [List.length_append, List.length_singleton] at hlen2
    omega
  · have h2 : s.submitted ++ [(i, b)] = s.submitted ++ [(i, a)] := hsub
    have h3 := List.append_cancel_left h2
    injection h3 with h4 _
    have h5 : b = a := congrArg Prod.snd h4
    subst h5
    rw [hrun] at hres
    simp only [resolveRun, hlk] at hres
    rcases hg : (s.status.set i Status.InProgress).getD j Status.Outstanding
      with _ | _ | o
    · rw [hg] at hres
      injection hres with hres
      exact hres.symm
    · rw [hg] at hres
      injection hres with hres
      exact hres.symm
    · have hno := hnc o hg
      simp only [hg, hno] at hres
      injection hres with hres
      exact hres.symm

/-- Witness for C10 at the dispatch of step 1 in the no-output example
run: the referenced step is `Completed` with `output = none`, so the
literal name "a" is submitted. -/
theorem c10_witness :
    poll ex3c 1 ex3s4 = some { ex3s5 with pending := [1] } ∧
    RunType.Step "a" = RunType.Step "a" :=
  ⟨by decide, c10_substitution_guard ex3c 1 ex3s4 { ex3s5 with pending := [1] }
    (RunType.Step "a") "a" 0 (by decide) (by decide) (by decide) (by decide)
    (fun o ho => by
      have h2 : Status.Completed outNone = Status.Completed o := ho
      injection h2 with h2
      rw [← h2]
      rfl)⟩

end Lorikeet
